import Mathlib

/-!
# Monty interpreter (`push.c`): embedding and verified properties

A shallow embedding of `push.c`.  C strings are lists of characters (the
characters before the terminating NUL, so a string never holds NUL itself).
The heap is a list of nodes, a pointer is `Option Nat` (`none` is `NULL`, `some a`
is the node at index `a`).  `exit` and undefined behaviour are outcomes of a call.
Loops whose termination depends on the data (heap traversal, line reading) take
a fuel argument; running out of fuel is the outcome `timeout`.
-/

namespace Monty

/-! ## The C library functions the program calls -/

/-- Reinterpretation of an integer as a 32-bit two's complement `int`. -/
def toInt32 (x : Int) : Int := (x + 2 ^ 31) % 2 ^ 32 - 2 ^ 31

/-- The `%d` conversion of printf: signed decimal, `-` for negative values. -/
def fmt_d : Int → List Char
  | Int.ofNat n => Nat.toDigits 10 n
  | Int.negSucc n => '-' :: Nat.toDigits 10 (n + 1)

/-- The library `strcmp`, up to the sign of its result (all the C standard fixes):
lexicographic comparison of the characters as unsigned values, a proper prefix
being smaller. -/
def strcmp : List Char → List Char → Int
  | [], [] => 0
  | [], _ :: _ => -1
  | _ :: _, [] => 1
  | a :: as, b :: bs =>
    if a = b then strcmp as bs else if a.toNat < b.toNat then -1 else 1

/-- The delimiter string `" \t\n"` passed to `strtok`. -/
def delims : List Char := [' ', '\t', '\n']

/-- The library `strtok`, with the saved position made explicit: skip the leading
delimiters; at the end of the string return `NULL`; otherwise the token runs up to
the next delimiter (or the end) and scanning resumes after that delimiter. The
result is the token and the saved rest of the string. -/
def strtok (s delim : List Char) : Option (List Char × List Char) :=
  match s.dropWhile (fun c => delim.contains c) with
  | [] => none
  | c :: cs =>
    some ((c :: cs).takeWhile (fun d => !delim.contains d),
          ((c :: cs).dropWhile (fun d => !delim.contains d)).drop 1)

/-- The library `isspace` in the C locale. -/
def isspace (c : Char) : Bool :=
  c = ' ' || (9 ≤ c.toNat && c.toNat ≤ 13)

/-- The library `isdigit`. -/
def isdigit (c : Char) : Bool := 48 ≤ c.toNat && c.toNat ≤ 57

/-- Value of the leading run of decimal digits, accumulated from `acc`. -/
def strtol_digits (acc : Nat) : List Char → Nat
  | [] => acc
  | c :: cs => if isdigit c then strtol_digits (acc * 10 + (c.toNat - 48)) cs else acc

/-- The largest `long` (64 bits). -/
def LONG_MAX : Int := 2 ^ 63 - 1

/-- The smallest `long` (64 bits). -/
def LONG_MIN : Int := -(2 ^ 63)

/-- The library `strtol(s, NULL, 10)` with a 64-bit `long`: leading white space,
an optional sign, the leading digits; no digits give 0; out of range values are
clamped. -/
def strtol (s : List Char) : Int :=
  match s.dropWhile isspace with
  | '-' :: t => max (-(strtol_digits 0 t : Int)) LONG_MIN
  | '+' :: t => min (strtol_digits 0 t : Int) LONG_MAX
  | t => min (strtol_digits 0 t : Int) LONG_MAX

/-- The library `atoi`: `(int) strtol(s, NULL, 10)`. -/
def atoi (s : List Char) : Int := toInt32 (strtol s)

/-! ## Data model -/

/-- Modelled from the spec: the declaration of `stack_t` is in `monty.h`, which is
not among the sources; `push.c` uses the fields `n`, `prev` and `next` of a node
of the doubly linked stack. -/
structure stack_t where
  n : Int
  prev : Option Nat
  next : Option Nat
deriving DecidableEq, Repr

/-- The state of the process that the interpreter touches: the heap of stack nodes,
the number of nodes `malloc` can still hand out, the stack pointer `*stack` of
`process_file`, and what has been written to stdout and stderr. -/
structure State where
  mem : List stack_t
  avail : Nat
  stack : Option Nat
  out : List Char
  err : List Char
deriving DecidableEq, Repr

/-- How a call ends: it returns, the process exits with a status, it runs into
undefined behaviour (an invalid pointer is dereferenced), or the fuel is used up. -/
inductive Outcome where
  | ret (s : State)
  | exit (status : Nat) (s : State)
  | undef
  | timeout
deriving DecidableEq, Repr

/-- The status `EXIT_SUCCESS` of `stdlib.h`. -/
def EXIT_SUCCESS : Nat := 0

/-- The status `EXIT_FAILURE` of `stdlib.h`. -/
def EXIT_FAILURE : Nat := 1

/-- The library `malloc(sizeof(stack_t))`: a fresh node at the end of the heap, or
`NULL` when no memory is left. -/
def malloc (s : State) : Option Nat × State :=
  if 0 < s.avail then
    (some s.mem.length,
      { s with mem := s.mem ++ [{ n := 0, prev := none, next := none }], avail := s.avail - 1 })
  else (none, s)

/-! ## The functions of `push.c` -/

/-- Handler `push` of `push.c`. -/
def push (_fuel : Nat) (s : State) (_line_number : Nat) (arg : Int) : Outcome :=
  match malloc s with
  | (none, s1) =>
    Outcome.exit EXIT_FAILURE { s1 with err := s1.err ++ "Error: malloc failed\n".toList }
  | (some new_node, s1) =>
    let mem1 := s1.mem.set new_node { n := arg, prev := none, next := s1.stack }
    match s1.stack with
    | none => Outcome.ret { s1 with mem := mem1, stack := some new_node }
    | some head =>
      match mem1.get? head with
      | none => Outcome.undef
      | some hd =>
        Outcome.ret { s1 with mem := mem1.set head { hd with prev := some new_node },
                              stack := some new_node }

/-- The `while (current != NULL)` loop of `pall`. -/
def pall_loop : Nat → State → Option Nat → Outcome
  | _, s, none => Outcome.ret s
  | 0, _, some _ => Outcome.timeout
  | fuel + 1, s, some current =>
    match s.mem.get? current with
    | none => Outcome.undef
    | some node =>
      pall_loop fuel { s with out := s.out ++ (fmt_d node.n ++ ['\n']) } node.next

/-- Handler `pall` of `push.c`. -/
def pall (fuel : Nat) (s : State) (_line_number : Nat) (_arg : Int) : Outcome :=
  pall_loop fuel s s.stack

/-- The type of a handler, `void (*)(stack_t **stack, unsigned int line_number, int arg)`. -/
abbrev op_func := Nat → State → Nat → Int → Outcome

/-- Modelled from the spec: the declaration of `instruction_t` is in `monty.h`, which
is not among the sources; `push.c` uses its fields `opcode` and `f`. -/
structure instruction_t where
  opcode : List Char
  f : op_func

/-- The table `instructions[]` of `get_op_func`, up to its `NULL` sentinel. -/
def instructions : List instruction_t :=
  [{ opcode := "push".toList, f := push }, { opcode := "pall".toList, f := pall }]

/-- The `for` loop of `get_op_func`. -/
def get_op_func_loop (opcode : List Char) : List instruction_t → Option op_func
  | [] => none
  | i :: rest => if strcmp opcode i.opcode = 0 then some i.f else get_op_func_loop opcode rest

/-- Function `get_op_func` of `push.c`: the handler of an opcode, or `NULL`. -/
def get_op_func (opcode : List Char) : Option op_func :=
  get_op_func_loop opcode instructions

/-- Function `parse_and_execute` of `push.c`. The line number is an `unsigned int`
handed to `%d`, which prints it as an `int`. -/
def parse_and_execute (fuel : Nat) (line : List Char) (s : State) (line_number : Nat) :
    Outcome :=
  match strtok line delims with
  | none => Outcome.ret s
  | some (opcode, saved) =>
    if opcode.head? = some '#' then Outcome.ret s
    else
      let arg := (strtok saved delims).map Prod.fst
      match get_op_func opcode with
      | none =>
        Outcome.exit EXIT_FAILURE
          { s with err := s.err ++ ("L".toList ++ fmt_d (toInt32 line_number) ++
                    ": unknown instruction ".toList ++ opcode ++ ['\n']) }
      | some f =>
        let int_arg := match arg with
          | some a => atoi a
          | none => 0
        f fuel s line_number int_arg

/-- What a call of `fgets` does: it returns `NULL`, or it returns the buffer, now
holding a string, or its behaviour is undefined. In each case the stream may have
advanced. -/
inductive fgets_result where
  | null (stream : List Char)
  | str (buf : List Char) (stream : List Char)
  | undef
deriving DecidableEq, Repr

/-- Characters `fgets` moves from the stream to the buffer: at most `k`, stopping
after a newline. -/
def fgets_read : Nat → List Char → List Char × List Char
  | 0, cs => ([], cs)
  | _ + 1, [] => ([], [])
  | k + 1, c :: cs =>
    if c = '\n' then ([c], cs)
    else ((c :: (fgets_read k cs).1), (fgets_read k cs).2)

/-- The library `fgets(s, n, stream)` as glibc and musl implement it: for `n <= 0`
it returns `NULL` at once, reading nothing and not touching the buffer; for `n = 1`
it stores the empty string; otherwise it returns `NULL` at end of file and else
stores at most `n - 1` characters, up to and including a newline. Storing through
a `NULL` buffer is undefined. -/
def fgets (s : Option Nat) (n : Int) (stream : List Char) : fgets_result :=
  if n ≤ 0 then fgets_result.null stream
  else
    match s with
    | none => fgets_result.undef
    | some _ =>
      if n = 1 then fgets_result.str [] stream
      else
        match stream with
        | [] => fgets_result.null []
        | c :: cs =>
          fgets_result.str (fgets_read (n - 1).toNat (c :: cs)).1
            (fgets_read (n - 1).toNat (c :: cs)).2

/-- The `while (fgets(line, len, file) != NULL)` loop of `process_file`; `line` and
`len` are the local variables of that name, `line_number` is an `unsigned int`.
The first argument bounds the number of iterations. -/
def process_file_loop : Nat → Nat → Option Nat → Int → List Char → Nat → State → Outcome
  | 0, _, _, _, _, _, _ => Outcome.timeout
  | k + 1, fuel, line, len, file, line_number, s =>
    match fgets line len file with
    | fgets_result.null _ => Outcome.ret s
    | fgets_result.undef => Outcome.undef
    | fgets_result.str buf file1 =>
      match parse_and_execute fuel buf s ((line_number + 1) % 2 ^ 32) with
      | Outcome.ret s1 =>
        process_file_loop k fuel line len file1 ((line_number + 1) % 2 ^ 32) s1
      | o => o

/-- Function `process_file` of `push.c`: `line = NULL`, `len = 0`, `line_number = 0`,
`stack = NULL`, then the loop (and `free(line)`, which frees nothing). -/
def process_file (fuel : Nat) (file : List Char) (s : State) : Outcome :=
  process_file_loop fuel fuel none 0 file 0 { s with stack := none }

/-- Function `main` of `push.c`. `fopen` gives the contents of the named file, or
`NULL`. -/
def main (fuel : Nat) (argv : List (List Char)) (fopen : List Char → Option (List Char))
    (s : State) : Outcome :=
  if argv.length ≠ 2 then
    Outcome.exit EXIT_FAILURE
      { s with err := s.err ++ ("USAGE: ".toList ++ argv.headD [] ++ " file\n".toList) }
  else
    match fopen (argv.getD 1 []) with
    | none =>
      Outcome.exit EXIT_FAILURE
        { s with err := s.err ++ ("Error: Can't open file ".toList ++ argv.getD 1 [] ++ ['\n']) }
    | some file =>
      match process_file fuel file s with
      | Outcome.ret s1 => Outcome.exit EXIT_SUCCESS s1
      | o => o

/-- The state of a fresh process: empty heap, `avail` nodes of memory, nothing
written yet. -/
def init (avail : Nat) : State :=
  { mem := [], avail := avail, stack := none, out := [], err := [] }

/-! ## Reading a stack off the heap -/

/-- The heap holds, from pointer `head` on, a well-formed doubly linked list with
the values `vs` from top to bottom: every node is allocated, its `prev` is the
node before it (`p` for the first one), and the last `next` is `NULL`. -/
def is_stack (mem : List stack_t) : Option Nat → Option Nat → List Int → Bool
  | _, none, [] => true
  | _, none, _ :: _ => false
  | _, some _, [] => false
  | p, some a, v :: vs =>
    match mem.get? a with
    | none => false
    | some node => node.n = v && node.prev = p && is_stack mem (some a) node.next vs

/-- The text `pall` prints for the values `vs`: each in signed decimal, followed by
a newline. -/
def print_lines : List Int → List Char
  | [] => []
  | v :: vs => fmt_d v ++ ['\n'] ++ print_lines vs

/-- The body of the loop of `process_file`, run on lines that have already been
read: the line counter is incremented, the line is parsed and executed, and the
run goes on only when that call returns. -/
def exec_lines (fuel : Nat) : List (List Char) → Nat → State → Outcome
  | [], _, s => Outcome.ret s
  | l :: ls, line_number, s =>
    match parse_and_execute fuel l s ((line_number + 1) % 2 ^ 32) with
    | Outcome.ret s1 => exec_lines fuel ls ((line_number + 1) % 2 ^ 32) s1
    | o => o

/-- A line seen as the tokenizer sees it: delimiters `ws`, then a non-empty token
`tok` free of delimiters, then `rest`, which is empty or starts with a delimiter. -/
def first_token (line ws tok rest : List Char) : Prop :=
  line = ws ++ tok ++ rest ∧ (∀ c ∈ ws, c ∈ delims) ∧ tok ≠ [] ∧ (∀ c ∈ tok, c ∉ delims) ∧
    (∀ c ∈ rest.head?, c ∈ delims)

instance (line ws tok rest : List Char) : Decidable (first_token line ws tok rest) := by
  unfold first_token
  infer_instance

/-- A state whose heap holds the stack 2, 1 (top first), laid out as two calls of
`push` build it. -/
def two_nodes : State :=
  { mem := [{ n := 1, prev := some 1, next := none }, { n := 2, prev := none, next := some 0 }],
    avail := 4, stack := some 1, out := [], err := [] }

/-- The line `push <t>` with its newline. -/
def push_line (t : List Char) : List Char := "push ".toList ++ t ++ ['\n']

/-- A string begins with an integer: with a decimal digit, or with a sign that a
decimal digit follows. -/
def begins_with_integer : List Char → Bool
  | [] => false
  | c :: rest =>
    isdigit c || ((c = '+' || c = '-') &&
      match rest with
      | [] => false
      | d :: _ => isdigit d)

/-- The number a string of decimal digits denotes. -/
def digits_value (ds : List Char) : Nat :=
  Nat.ofDigits 10 (ds.reverse.map (fun c => c.toNat - 48))

/-- The heap holds, from pointer `head` on, a doubly linked list whose nodes are at
the addresses `as`, in this order: as `is_stack`, with the addresses of the nodes in
place of their values. -/
def is_path (mem : List stack_t) : Option Nat → Option Nat → List Nat → Bool
  | _, none, [] => true
  | _, none, _ :: _ => false
  | _, some _, [] => false
  | p, some a, b :: bs =>
    match mem.get? a with
    | none => false
    | some node => a = b && node.prev = p && is_path mem (some a) node.next bs

/-- The stack of a state is a well-formed doubly linked list over the addresses
`addrs`: no address occurs twice (no cycle), the head is the first address, the
`next` of each node is the following address and `NULL` at the end, the head node
has no predecessor, and the successor of a node has that node as its predecessor. -/
def well_formed (s : State) (addrs : List Nat) : Prop :=
  addrs.Nodup ∧ s.stack = addrs.head? ∧
    (∀ i, i < addrs.length →
      ∃ node, s.mem.get? (addrs.getD i 0) = some node ∧ node.next = addrs.get? (i + 1)) ∧
    (∀ a node, s.stack = some a → s.mem.get? a = some node → node.prev = none) ∧
    (∀ a node b, a ∈ addrs → s.mem.get? a = some node → node.next = some b →
      ∃ nb, s.mem.get? b = some nb ∧ nb.prev = some a)

/-- A call of one of the two handlers, with its line number and argument. -/
inductive call where
  | push (line_number : Nat) (arg : Int)
  | pall (line_number : Nat) (arg : Int)

/-- A sequence of handler calls, one after the other, as long as each returns. -/
def run_calls (fuel : Nat) : List call → State → Outcome
  | [], s => Outcome.ret s
  | call.push line_number arg :: cs, s =>
    match push fuel s line_number arg with
    | Outcome.ret s1 => run_calls fuel cs s1
    | o => o
  | call.pall line_number arg :: cs, s =>
    match pall fuel s line_number arg with
    | Outcome.ret s1 => run_calls fuel cs s1
    | o => o

/-- The arguments of the `push` calls of a sequence, in call order. -/
def pushed_values : List call → List Int
  | [] => []
  | call.push _ arg :: cs => arg :: pushed_values cs
  | call.pall _ _ :: cs => pushed_values cs

/-- What a line asks for: nothing (blank or comment), a push of a value, a print of
the stack, or an opcode that is not known. -/
inductive instr where
  | skip
  | push (v : Int)
  | pall
  | unknown (opcode : List Char)
deriving DecidableEq, Repr

/-- The reading of a line: its first token decides, a first token starting with `#`
makes a comment, the second token is the argument of `push`. -/
def decode (line : List Char) : instr :=
  match strtok line delims with
  | none => instr.skip
  | some (opcode, saved) =>
    if opcode.head? = some '#' then instr.skip
    else if opcode = "push".toList then
      instr.push (match strtok saved delims with
        | some (a, _) => atoi a
        | none => 0)
    else if opcode = "pall".toList then instr.pall
    else instr.unknown opcode

/-- The diagnostic for an unknown opcode, as `fprintf` formats it. -/
def unknown_diagnostic (line_number : Nat) (opcode : List Char) : List Char :=
  "L".toList ++ fmt_d (toInt32 line_number) ++ ": unknown instruction ".toList ++ opcode ++ ['\n']

/-- An outcome is a failure with an unknown-instruction diagnostic `d`: the process
exits with failure, and what it has added to stderr is `d`, of the form
`L<n>: unknown instruction <token>` with a newline. -/
def is_unknown_failure (s : State) (o : Outcome) (d : List Char) : Prop :=
  o = Outcome.exit EXIT_FAILURE { s with err := s.err ++ d } ∧
    ∃ (n : Int) (tok : List Char),
      d = "L".toList ++ fmt_d n ++ ": unknown instruction ".toList ++ tok ++ ['\n']

/-- The values of the `push` instructions of a program, in program order. -/
def pushed_by : List instr → List Int
  | [] => []
  | instr.push v :: r => v :: pushed_by r
  | _ :: r => pushed_by r

/-- The output expected of the instructions `is` that come after the instructions
`before`: each `pall` prints the values pushed before it, most recently pushed
first, one per line. -/
def expected_out_from (before : List instr) : List instr → List Char
  | [] => []
  | instr.pall :: r =>
    print_lines (pushed_by before).reverse ++ expected_out_from (before ++ [instr.pall]) r
  | i :: r => expected_out_from (before ++ [i]) r

/-- The output expected of a program. -/
def expected_out (is : List instr) : List Char := expected_out_from [] is

/-- A line is known: it is not read as an unknown opcode. -/
def is_known (line : List Char) : Bool :=
  match decode line with
  | instr.unknown _ => false
  | _ => true

/-! ## Library and registry lemmas -/

theorem strcmp_eq_zero_iff (a b : List Char) : strcmp a b = 0 ↔ a = b := by
  induction a generalizing b with
  | nil => cases b <;> simp [strcmp]
  | cons x xs ih =>
    cases b with
    | nil => simp [strcmp]
    | cons y ys =>
      by_cases h : x = y
      · simp [strcmp, h, ih]
      · by_cases h2 : x.toNat < y.toNat <;> simp [strcmp, h, h2]

theorem get_op_func_eq (name : List Char) :
    get_op_func name =
      if name = "push".toList then some push
      else if name = "pall".toList then some pall else none := by
  simp only [get_op_func, instructions, get_op_func_loop, strcmp_eq_zero_iff]

theorem push_ne_pall : push ≠ pall := by
  intro h
  have := congrFun (congrFun (congrFun (congrFun h 0) (init 1)) 0) 0
  revert this
  decide

theorem dropWhile_delims_append (ws rest : List Char) (h : ∀ c ∈ ws, c ∈ delims) :
    (ws ++ rest).dropWhile (fun c => delims.contains c) =
      rest.dropWhile (fun c => delims.contains c) := by
  induction ws with
  | nil => rfl
  | cons w ws ih =>
    have hw : delims.contains w = true := by
      simpa using h w (List.mem_cons_self _ _)
    simp only [List.cons_append, List.dropWhile_cons, hw, if_true]
    exact ih (fun c hc => h c (List.mem_cons_of_mem _ hc))

theorem strtok_skip (ws rest : List Char) (h : ∀ c ∈ ws, c ∈ delims) :
    strtok (ws ++ rest) delims = strtok rest delims := by
  unfold strtok
  rw [dropWhile_delims_append ws rest h]

theorem strtok_blank (ws : List Char) (h : ∀ c ∈ ws, c ∈ delims) :
    strtok ws delims = none := by
  have := strtok_skip ws [] h
  rw [List.append_nil] at this
  rw [this]
  rfl

theorem takeWhile_token (tok rest : List Char) (h : ∀ c ∈ tok, c ∉ delims)
    (hr : ∀ c ∈ rest.head?, c ∈ delims) :
    (tok ++ rest).takeWhile (fun d => !delims.contains d) = tok ∧
    (tok ++ rest).dropWhile (fun d => !delims.contains d) = rest := by
  induction tok with
  | nil =>
    cases rest with
    | nil => exact ⟨rfl, rfl⟩
    | cons r rs =>
      have hm : delims.contains r = true := by simpa using hr r (by simp)
      simp only [List.nil_append, List.takeWhile_cons, List.dropWhile_cons, hm]
      exact ⟨rfl, rfl⟩
  | cons t ts ih =>
    have ht : delims.contains t = false := by
      simpa using h t (List.mem_cons_self _ _)
    obtain ⟨h1, h2⟩ := ih (fun c hc => h c (List.mem_cons_of_mem _ hc))
    simp only [List.cons_append, List.takeWhile_cons, List.dropWhile_cons, ht, h1, h2]
    exact ⟨rfl, rfl⟩

theorem strtok_token (tok rest : List Char) (hne : tok ≠ []) (h : ∀ c ∈ tok, c ∉ delims)
    (hr : ∀ c ∈ rest.head?, c ∈ delims) :
    strtok (tok ++ rest) delims = some (tok, rest.drop 1) := by
  obtain ⟨h1, h2⟩ := takeWhile_token tok rest h hr
  cases tok with
  | nil => exact absurd rfl hne
  | cons t ts =>
    have ht : delims.contains t = false := by
      simpa using h t (List.mem_cons_self _ _)
    have hd : (t :: ts ++ rest).dropWhile (fun c => delims.contains c) = t :: (ts ++ rest) := by
      simp only [List.cons_append, List.dropWhile_cons, ht]
      rfl
    unfold strtok
    rw [hd]
    simp only [List.cons_append] at h1 h2
    simp only [h1, h2]

theorem strtok_first_token (line ws tok rest : List Char) (h : first_token line ws tok rest) :
    strtok line delims = some (tok, rest.drop 1) := by
  obtain ⟨rfl, hws, hne, htok, hrest⟩ := h
  rw [List.append_assoc, strtok_skip _ _ hws, strtok_token tok rest hne htok hrest]

/-- The token `strtok` returns is the first maximal run of characters other than
the delimiters: the line is delimiters, the token, and a rest that is empty or
starts with a delimiter. -/
theorem first_token_of_strtok (line tok saved : List Char)
    (h : strtok line delims = some (tok, saved)) :
    ∃ ws rest, first_token line ws tok rest ∧ saved = rest.drop 1 := by
  unfold strtok at h
  have hsplit := List.takeWhile_append_dropWhile (fun c => delims.contains c) line
  have hws : ∀ c ∈ line.takeWhile (fun c => delims.contains c), c ∈ delims := by
    intro c hc
    simpa using List.mem_takeWhile_imp hc
  have hhead := List.head?_dropWhile_not (fun c => delims.contains c) line
  cases hu : line.dropWhile (fun c => delims.contains c) with
  | nil =>
    rw [hu] at h
    cases h
  | cons c cs =>
    rw [hu] at h hsplit hhead
    simp only [Option.some.injEq, Prod.mk.injEq] at h
    obtain ⟨h1, h2⟩ := h
    have hc : delims.contains c = false := by
      simpa using hhead
    have hsplit2 := List.takeWhile_append_dropWhile (fun d => !delims.contains d) (c :: cs)
    refine ⟨line.takeWhile (fun c => delims.contains c),
      (c :: cs).dropWhile (fun d => !delims.contains d), ⟨?_, hws, ?_, ?_, ?_⟩, h2.symm⟩
    · rw [← h1, List.append_assoc, hsplit2, hsplit]
    · rw [← h1, List.takeWhile_cons, hc]
      exact List.cons_ne_nil _ _
    · intro x hx
      rw [← h1] at hx
      have := List.mem_takeWhile_imp hx
      simpa using this
    · intro x hx
      have := List.head?_dropWhile_not (fun d => !delims.contains d) (c :: cs)
      rw [Option.mem_def.1 hx] at this
      simpa using this

/-! ## Parsing a line -/

theorem parse_and_execute_first_token (fuel : Nat) (s : State) (ln : Nat)
    (line ws tok rest : List Char) (h : first_token line ws tok rest) :
    parse_and_execute fuel line s ln =
      if tok.head? = some '#' then Outcome.ret s
      else
        match get_op_func tok with
        | none =>
          Outcome.exit EXIT_FAILURE
            { s with err := s.err ++ ("L".toList ++ fmt_d (toInt32 ln) ++
                      ": unknown instruction ".toList ++ tok ++ ['\n']) }
        | some f =>
          f fuel s ln (match (strtok (rest.drop 1) delims).map Prod.fst with
            | some a => atoi a
            | none => 0) := by
  unfold parse_and_execute
  rw [strtok_first_token line ws tok rest h]

theorem toInt32_of_lt (n : Nat) (h : n < 2 ^ 31) : toInt32 (n : Int) = (n : Int) := by
  unfold toInt32
  omega

theorem fmt_d_natCast (n : Nat) : fmt_d (n : Int) = Nat.toDigits 10 n := rfl

/-- An unknown opcode on a line whose number fits an `int`: the diagnostic is
written to stderr, the process exits with failure, nothing else changes. -/
theorem parse_and_execute_unknown (fuel : Nat) (s : State) (ln : Nat)
    (line ws tok rest : List Char) (h : first_token line ws tok rest)
    (hc : tok.head? ≠ some '#') (hpush : tok ≠ "push".toList) (hpall : tok ≠ "pall".toList)
    (hln : ln < 2 ^ 31) :
    parse_and_execute fuel line s ln =
      Outcome.exit 1
        { s with err := s.err ++ ("L".toList ++ Nat.toDigits 10 ln ++
                  ": unknown instruction ".toList ++ tok ++ ['\n']) } := by
  rw [parse_and_execute_first_token fuel s ln line ws tok rest h, if_neg hc, get_op_func_eq,
    if_neg hpush, if_neg hpall]
  simp only [toInt32_of_lt ln hln, fmt_d_natCast]
  rfl

/-! ## Reading a stack off the heap: lemmas -/

theorem is_stack_none (mem : List stack_t) (p : Option Nat) (es : List Int) :
    is_stack mem p none es = true ↔ es = [] := by
  cases es <;> simp [is_stack]

theorem is_stack_cons (mem : List stack_t) (p : Option Nat) (a : Nat) (v : Int)
    (vs : List Int) :
    is_stack mem p (some a) (v :: vs) =
      match mem.get? a with
      | none => false
      | some node => node.n = v && node.prev = p && is_stack mem (some a) node.next vs := rfl

theorem is_stack_some (mem : List stack_t) (p : Option Nat) (a : Nat) (es : List Int) :
    is_stack mem p (some a) es = true ↔
      ∃ node vs, es = node.n :: vs ∧ mem.get? a = some node ∧ node.prev = p ∧
        is_stack mem (some a) node.next vs = true := by
  cases es with
  | nil => simp [is_stack]
  | cons v vs =>
    rw [is_stack_cons]
    cases hg : mem.get? a with
    | none => simp
    | some node =>
      simp only [Bool.and_eq_true, decide_eq_true_eq, List.cons.injEq, Option.some.injEq]
      constructor
      · rintro ⟨⟨h1, h2⟩, h3⟩
        exact ⟨node, vs, ⟨h1.symm, rfl⟩, rfl, h2, h3⟩
      · rintro ⟨node', vs', ⟨h1, rfl⟩, rfl, h2, h3⟩
        exact ⟨⟨h1.symm, h2⟩, h3⟩

/-- The values a heap holds from a given head are determined by the heap. -/
theorem is_stack_unique (mem : List stack_t) (p q head : Option Nat) (es fs : List Int)
    (h1 : is_stack mem p head es = true) (h2 : is_stack mem q head fs = true) : es = fs := by
  induction es generalizing p q head fs with
  | nil =>
    cases head with
    | none => exact ((is_stack_none mem q fs).1 h2).symm
    | some a => simp [is_stack] at h1
  | cons v vs ih =>
    cases head with
    | none => simp [is_stack] at h1
    | some a =>
      obtain ⟨n1, vs1, e1, g1, -, r1⟩ := (is_stack_some mem p a _).1 h1
      obtain ⟨n2, vs2, e2, g2, -, r2⟩ := (is_stack_some mem q a _).1 h2
      rw [g1] at g2
      cases g2
      cases e1
      rw [e2, ih _ _ _ _ r1 r2]

theorem is_stack_append (mem extra : List stack_t) (p head : Option Nat) (es : List Int)
    (h : is_stack mem p head es = true) : is_stack (mem ++ extra) p head es = true := by
  induction es generalizing p head with
  | nil =>
    cases head with
    | none => rfl
    | some a => simp [is_stack] at h
  | cons v vs ih =>
    cases head with
    | none => simp [is_stack] at h
    | some a =>
      obtain ⟨node, vs1, e1, g1, hp, r1⟩ := (is_stack_some mem p a _).1 h
      cases e1
      refine (is_stack_some _ p a _).2 ⟨node, vs, rfl, ?_, hp, ih _ _ r1⟩
      have hlt : a < mem.length := by
        rw [List.get?_eq_getElem?] at g1
        exact (List.getElem?_eq_some_iff.1 g1).1
      rw [List.get?_eq_getElem?, List.getElem?_append_left hlt, ← List.get?_eq_getElem?, g1]

theorem is_stack_set (mem : List stack_t) (q : Nat) (head : Option Nat) (es : List Int)
    (a : Nat) (nd x : stack_t) (hg : mem.get? a = some nd) (hprev : nd.prev = none)
    (h : is_stack mem (some q) head es = true) :
    is_stack (mem.set a x) (some q) head es = true := by
  induction es generalizing q head with
  | nil =>
    cases head with
    | none => rfl
    | some b => simp [is_stack] at h
  | cons v vs ih =>
    cases head with
    | none => simp [is_stack] at h
    | some b =>
      obtain ⟨node, vs1, e1, g1, hp, r1⟩ := (is_stack_some mem _ b _).1 h
      cases e1
      have hne : a ≠ b := by
        rintro rfl
        rw [hg] at g1
        cases g1
        rw [hprev] at hp
        cases hp
      refine (is_stack_some _ _ b _).2 ⟨node, vs, rfl, ?_, hp, ih _ _ r1⟩
      rw [List.get?_eq_getElem?, List.getElem?_set_ne hne, ← List.get?_eq_getElem?, g1]

/-! ## The handlers -/

theorem pall_loop_is_stack (es : List Int) :
    ∀ (fuel : Nat) (s : State) (p head : Option Nat),
      is_stack s.mem p head es = true → es.length ≤ fuel →
      pall_loop fuel s head = Outcome.ret { s with out := s.out ++ print_lines es } := by
  induction es with
  | nil =>
    intro fuel s p head h _
    cases head with
    | none => simp [pall_loop, print_lines]
    | some a => simp [is_stack] at h
  | cons v vs ih =>
    intro fuel s p head h hf
    cases head with
    | none => simp [is_stack] at h
    | some a =>
      obtain ⟨node, vs1, e1, g1, -, r1⟩ := (is_stack_some s.mem p a _).1 h
      cases e1
      cases fuel with
      | zero => simp at hf
      | succ k =>
        have hk : vs.length ≤ k := by simpa using hf
        rw [pall_loop, g1]
        have := ih k { s with out := s.out ++ (fmt_d node.n ++ ['\n']) } (some a) node.next r1 hk
        simp only [this, print_lines, List.append_assoc]

theorem pall_of_is_stack (s : State) (es : List Int) (fuel ln : Nat) (arg : Int)
    (hrep : is_stack s.mem none s.stack es = true) (hfuel : es.length ≤ fuel) :
    pall fuel s ln arg = Outcome.ret { s with out := s.out ++ print_lines es } :=
  pall_loop_is_stack es fuel s none s.stack hrep hfuel

theorem pall_loop_frame :
    ∀ (fuel : Nat) (s : State) (current : Option Nat),
      (∃ s1, pall_loop fuel s current = Outcome.ret s1 ∧ s1.mem = s.mem ∧ s1.stack = s.stack ∧
          s1.avail = s.avail ∧ s1.err = s.err) ∨
        pall_loop fuel s current = Outcome.undef ∨ pall_loop fuel s current = Outcome.timeout := by
  intro fuel
  induction fuel with
  | zero =>
    intro s current
    cases current with
    | none => exact Or.inl ⟨s, by simp [pall_loop]⟩
    | some a => exact Or.inr (Or.inr (by simp [pall_loop]))
  | succ k ih =>
    intro s current
    cases current with
    | none => exact Or.inl ⟨s, by simp [pall_loop]⟩
    | some a =>
      rw [pall_loop]
      cases hg : s.mem.get? a with
      | none => exact Or.inr (Or.inl rfl)
      | some node =>
        rcases ih { s with out := s.out ++ (fmt_d node.n ++ ['\n']) } node.next with
          ⟨s1, h1, h2, h3, h4, h5⟩ | h | h
        · exact Or.inl ⟨s1, h1, h2, h3, h4, h5⟩
        · exact Or.inr (Or.inl h)
        · exact Or.inr (Or.inr h)

theorem set_length_append (mem : List stack_t) (d x : stack_t) :
    (mem ++ [d]).set mem.length x = mem ++ [x] := by
  induction mem with
  | nil => rfl
  | cons m ms ih => simp only [List.cons_append, List.length_cons, List.set_cons_succ, ih]

theorem push_eq (fuel : Nat) (s : State) (ln : Nat) (v : Int) (h : 0 < s.avail) :
    push fuel s ln v =
      match s.stack with
      | none =>
        Outcome.ret { s with mem := s.mem ++ [({ n := v, prev := none, next := none } : stack_t)],
                             avail := s.avail - 1, stack := some s.mem.length }
      | some head =>
        match (s.mem ++ [({ n := v, prev := none, next := some head } : stack_t)]).get? head with
        | none => Outcome.undef
        | some hd =>
          Outcome.ret { s with
            mem := (s.mem ++ [({ n := v, prev := none, next := some head } : stack_t)]).set head
                      { hd with prev := some s.mem.length },
            avail := s.avail - 1, stack := some s.mem.length } := by
  unfold push malloc
  rw [if_pos h]
  simp only [set_length_append]
  cases s.stack <;> rfl

theorem push_is_stack (fuel : Nat) (s : State) (ln : Nat) (v : Int) (es : List Int)
    (hrep : is_stack s.mem none s.stack es = true) (havail : 0 < s.avail) :
    ∃ s1, push fuel s ln v = Outcome.ret s1 ∧ is_stack s1.mem none s1.stack (v :: es) = true ∧
      s1.stack = some s.mem.length ∧ s1.mem.length = s.mem.length + 1 ∧
      s1.avail = s.avail - 1 ∧ s1.out = s.out ∧ s1.err = s.err := by
  rw [push_eq fuel s ln v havail]
  cases hs : s.stack with
  | none =>
    rw [hs] at hrep
    have he := (is_stack_none _ _ _).1 hrep
    subst he
    refine ⟨_, rfl, ?_, rfl, by simp, rfl, rfl, rfl⟩
    refine (is_stack_some _ _ _ _).2 ⟨{ n := v, prev := none, next := none }, [], rfl, ?_, rfl, rfl⟩
    simp
  | some head =>
    rw [hs] at hrep
    obtain ⟨node, vs, e1, g1, hp, r1⟩ := (is_stack_some _ _ _ _).1 hrep
    subst e1
    have hlt : head < s.mem.length := by
      rw [List.get?_eq_getElem?] at g1
      exact (List.getElem?_eq_some_iff.1 g1).1
    have g2 : (s.mem ++ [({ n := v, prev := none, next := some head } : stack_t)]).get? head = some node := by
      rw [List.get?_eq_getElem?, List.getElem?_append_left hlt, ← List.get?_eq_getElem?, g1]
    simp only [g2]
    refine ⟨_, rfl, ?_, rfl, by simp, rfl, rfl, rfl⟩
    refine (is_stack_some _ _ _ _).2
      ⟨{ n := v, prev := none, next := some head }, node.n :: vs, rfl, ?_, rfl, ?_⟩
    · rw [List.get?_eq_getElem?, List.getElem?_set_ne (Nat.ne_of_lt hlt)]
      simp
    · refine (is_stack_some _ _ _ _).2
        ⟨{ node with prev := some s.mem.length }, vs, rfl, ?_, rfl, ?_⟩
      · rw [List.get?_eq_getElem?, List.getElem?_set_eq_of_lt]
        simp
        omega
      · exact is_stack_set _ _ _ _ _ node _ g2 hp (is_stack_append _ _ _ _ _ r1)

theorem strtok_comment (ws rest : List Char) (h : ∀ c ∈ ws, c ∈ delims) :
    ∃ tok saved, strtok (ws ++ '#' :: rest) delims = some ('#' :: tok, saved) := by
  rw [strtok_skip _ _ h]
  exact ⟨_, _, rfl⟩

theorem parse_and_execute_push_alone (fuel : Nat) (s : State) (ln : Nat) (ws1 ws2 : List Char)
    (h1 : ∀ c ∈ ws1, c ∈ delims) (h2 : ∀ c ∈ ws2, c ∈ delims) :
    parse_and_execute fuel (ws1 ++ "push".toList ++ ws2) s ln = push fuel s ln 0 := by
  have hft : first_token (ws1 ++ "push".toList ++ ws2) ws1 "push".toList ws2 := by
    refine ⟨rfl, h1, by decide, by decide, ?_⟩
    intro c hc
    exact h2 c (List.mem_of_mem_head? hc)
  rw [parse_and_execute_first_token fuel s ln _ _ _ _ hft, if_neg (by decide), get_op_func_eq,
    if_pos rfl]
  have : strtok (ws2.drop 1) delims = none :=
    strtok_blank _ (fun c hc => h2 c (List.mem_of_mem_drop hc))
  simp only [this, Option.map_none']

/-! ## Reading the file -/

theorem fgets_size_zero (s : Option Nat) (stream : List Char) :
    fgets s 0 stream = fgets_result.null stream := rfl

/-- With a buffer and a positive size `fgets` does deliver the next line. -/
theorem fgets_reads_a_line :
    fgets (some 0) 120 "push 1\npall\n".toList =
      fgets_result.str "push 1\n".toList "pall\n".toList := by
  decide

theorem process_file_loop_reads_no_line (k fuel : Nat) (file : List Char) (n : Nat) (s : State) :
    process_file_loop (k + 1) fuel none 0 file n s = Outcome.ret s := rfl

theorem process_file_reads_no_line (fuel : Nat) (file : List Char) (s : State) :
    process_file (fuel + 1) file s = Outcome.ret { s with stack := none } := rfl

/-! ## The loop body on lines that have been read -/

theorem exec_lines_append (fuel : Nat) (p q : List (List Char)) :
    ∀ (n : Nat) (s : State), n < 2 ^ 32 →
      exec_lines fuel (p ++ q) n s =
        match exec_lines fuel p n s with
        | Outcome.ret s1 => exec_lines fuel q ((n + p.length) % 2 ^ 32) s1
        | o => o := by
  induction p with
  | nil =>
    intro n s hn
    simp only [List.nil_append, exec_lines, List.length_nil, Nat.add_zero, Nat.mod_eq_of_lt hn]
  | cons l ls ih =>
    intro n s hn
    have e : ((n + 1) % 2 ^ 32 + ls.length) % 2 ^ 32 = (n + (l :: ls).length) % 2 ^ 32 := by
      simp only [List.length_cons]
      omega
    rw [List.cons_append, exec_lines, exec_lines]
    cases h : parse_and_execute fuel l s ((n + 1) % 2 ^ 32) with
    | ret s1 =>
      simp only []
      rw [ih _ _ (Nat.mod_lt _ (by norm_num)), e]
    | exit c s1 => rfl
    | undef => rfl
    | timeout => rfl


/-- Once lines are delivered, the run stops at the first unknown opcode: the lines
after it are not executed and the diagnostic carries its 1-based line number. -/
theorem exec_lines_halts_at_unknown (fuel : Nat) (p rest : List (List Char))
    (bad ws tok r : List Char) (s s1 : State)
    (hp : exec_lines fuel p 0 s = Outcome.ret s1) (hbad : first_token bad ws tok r)
    (hc : tok.head? ≠ some '#') (hpush : tok ≠ "push".toList) (hpall : tok ≠ "pall".toList)
    (hk : p.length + 1 < 2 ^ 31) :
    exec_lines fuel (p ++ bad :: rest) 0 s =
      Outcome.exit 1
        { s1 with err := s1.err ++ ("L".toList ++ Nat.toDigits 10 (p.length + 1) ++
                    ": unknown instruction ".toList ++ tok ++ ['\n']) } := by
  have e : ((0 + p.length) % 2 ^ 32 + 1) % 2 ^ 32 = p.length + 1 := by omega
  rw [exec_lines_append fuel p (bad :: rest) 0 s (by norm_num), hp]
  simp only []
  rw [exec_lines, e, parse_and_execute_unknown fuel s1 (p.length + 1) bad ws tok r hbad hc hpush
    hpall hk]

theorem parse_and_execute_push_line (fuel : Nat) (s : State) (ln : Nat) (t : List Char)
    (hne : t ≠ []) (ht : ∀ c ∈ t, c ∉ delims) :
    parse_and_execute fuel (push_line t) s ln = push fuel s ln (atoi t) := by
  have hft : first_token (push_line t) [] "push".toList (' ' :: (t ++ ['\n'])) := by
    refine ⟨?_, by simp, by decide, by decide, ?_⟩
    · simp [push_line]
    · intro c hc
      simp only [List.head?_cons, Option.mem_def, Option.some.injEq] at hc
      subst hc
      decide
  rw [parse_and_execute_first_token fuel s ln _ _ _ _ hft, if_neg (by decide), get_op_func_eq,
    if_pos rfl]
  have : strtok (List.drop 1 (' ' :: (t ++ ['\n']))) delims = some (t, []) :=
    strtok_token t ['\n'] hne ht (by decide)
  simp only [this, Option.map_some']

theorem parse_and_execute_pall_line (fuel : Nat) (s : State) (ln : Nat) :
    parse_and_execute fuel "pall\n".toList s ln = pall fuel s ln 0 := rfl

theorem exec_lines_push_lines (fuel : Nat) (ts : List (List Char)) :
    ∀ (n : Nat) (s : State) (es : List Int),
      (∀ t ∈ ts, t ≠ [] ∧ ∀ c ∈ t, c ∉ delims) →
      is_stack s.mem none s.stack es = true → ts.length ≤ s.avail →
      ∃ s1, exec_lines fuel (ts.map push_line) n s = Outcome.ret s1 ∧
        is_stack s1.mem none s1.stack ((ts.map atoi).reverse ++ es) = true ∧
        s1.out = s.out ∧ s1.err = s.err ∧ s1.avail = s.avail - ts.length := by
  induction ts with
  | nil =>
    intro n s es _ hrep _
    exact ⟨s, rfl, hrep, rfl, rfl, rfl⟩
  | cons t ts ih =>
    intro n s es ht hrep hav
    obtain ⟨hne, hd⟩ := ht t (List.mem_cons_self _ _)
    have hav1 : 0 < s.avail := by
      simp only [List.length_cons] at hav
      omega
    obtain ⟨s1, e1, r1, -, -, a1, o1, x1⟩ :=
      push_is_stack fuel s ((n + 1) % 2 ^ 32) (atoi t) es hrep hav1
    obtain ⟨s2, e2, r2, o2, x2, a2⟩ :=
      ih ((n + 1) % 2 ^ 32) s1 (atoi t :: es) (fun u hu => ht u (List.mem_cons_of_mem _ hu)) r1
        (by simp only [List.length_cons] at hav; omega)
    refine ⟨s2, ?_, ?_, o2.trans o1, x2.trans x1, ?_⟩
    · rw [List.map_cons, exec_lines, parse_and_execute_push_line fuel s _ t hne hd, e1]
      exact e2
    · simpa using r2
    · rw [a2, a1, List.length_cons]
      omega

/-- Once lines are delivered, `push v_1`, ..., `push v_N`, `pall` from the empty stack
prints v_N, ..., v_1 and writes nothing to stderr. -/
theorem exec_lines_pushes_then_pall (fuel avail : Nat) (ts : List (List Char))
    (ht : ∀ t ∈ ts, t ≠ [] ∧ ∀ c ∈ t, c ∉ delims) (hav : ts.length ≤ avail)
    (hfuel : ts.length ≤ fuel) :
    ∃ s1, exec_lines fuel (ts.map push_line ++ ["pall\n".toList]) 0 (init avail) =
        Outcome.ret s1 ∧
      s1.out = print_lines (ts.map atoi).reverse ∧ s1.err = [] ∧
      is_stack s1.mem none s1.stack (ts.map atoi).reverse = true := by
  obtain ⟨s1, e1, r1, o1, x1, -⟩ := exec_lines_push_lines fuel ts 0 (init avail) [] ht rfl hav
  rw [List.append_nil] at r1
  have hlen : ((ts.map atoi).reverse).length ≤ fuel := by simpa using hfuel
  refine ⟨{ s1 with out := s1.out ++ print_lines (ts.map atoi).reverse }, ?_, ?_, x1, r1⟩
  · rw [exec_lines_append fuel _ _ 0 _ (by norm_num), e1]
    simp only []
    rw [exec_lines, parse_and_execute_pall_line]
    unfold pall
    rw [pall_loop_is_stack _ fuel s1 none s1.stack r1 hlen]
    rfl
  · rw [o1]
    rfl

/-! ## Reading back a printed integer -/

theorem digitChar_isdigit (m : Nat) (h : m < 10) :
    isdigit (Nat.digitChar m) = true ∧ (Nat.digitChar m).toNat - 48 = m ∧
      isspace (Nat.digitChar m) = false ∧ Nat.digitChar m ≠ '-' ∧ Nat.digitChar m ≠ '+' ∧
      Nat.digitChar m ∉ delims := by
  interval_cases m <;> decide

theorem strtol_digits_toDigitsCore (fuel : Nat) :
    ∀ n, n < fuel → ∃ k, ∀ (acc : Nat) (ds : List Char),
      strtol_digits acc (Nat.toDigitsCore 10 fuel n ds) = strtol_digits (acc * 10 ^ k + n) ds := by
  induction fuel with
  | zero => intro n h; omega
  | succ f ih =>
    intro n hn
    obtain ⟨hd, hv, -⟩ := digitChar_isdigit (n % 10) (Nat.mod_lt _ (by norm_num))
    by_cases h0 : n / 10 = 0
    · refine ⟨1, fun acc ds => ?_⟩
      have hn10 : n % 10 = n := by omega
      rw [Nat.toDigitsCore]
      simp only [h0, if_true]
      rw [strtol_digits, if_pos hd, hv, hn10, pow_one]
    · obtain ⟨k, hk⟩ := ih (n / 10) (by omega)
      refine ⟨k + 1, fun acc ds => ?_⟩
      rw [Nat.toDigitsCore]
      simp only [h0, if_false]
      rw [hk, strtol_digits, if_pos hd, hv]
      congr 1
      have := Nat.div_add_mod n 10
      rw [pow_succ]
      nlinarith [Nat.div_add_mod n 10]

theorem strtol_digits_toDigits (n : Nat) : strtol_digits 0 (Nat.toDigits 10 n) = n := by
  obtain ⟨k, hk⟩ := strtol_digits_toDigitsCore (n + 1) n (Nat.lt_succ_self n)
  have := hk 0 []
  simpa [Nat.toDigits, strtol_digits] using this

theorem toDigitsCore_head (fuel : Nat) :
    ∀ (n : Nat) (ds : List Char), n < fuel →
      ∃ m cs, m < 10 ∧ Nat.toDigitsCore 10 fuel n ds = Nat.digitChar m :: cs := by
  induction fuel with
  | zero => intro n ds h; omega
  | succ f ih =>
    intro n ds hn
    by_cases h0 : n / 10 = 0
    · refine ⟨n % 10, ds, Nat.mod_lt _ (by norm_num), ?_⟩
      rw [Nat.toDigitsCore]
      simp only [h0, if_true]
    · obtain ⟨m, cs, hm, e⟩ := ih (n / 10) (Nat.digitChar (n % 10) :: ds) (by omega)
      refine ⟨m, cs, hm, ?_⟩
      rw [Nat.toDigitsCore]
      simp only [h0, if_false]
      exact e

theorem toDigitsCore_no_delim (fuel : Nat) :
    ∀ (n : Nat) (ds : List Char), (∀ c ∈ ds, c ∉ delims) →
      ∀ c ∈ Nat.toDigitsCore 10 fuel n ds, c ∉ delims := by
  induction fuel with
  | zero => intro n ds h; simpa [Nat.toDigitsCore] using h
  | succ f ih =>
    intro n ds h
    have hd := (digitChar_isdigit (n % 10) (Nat.mod_lt _ (by norm_num))).2.2.2.2.2
    have h1 : ∀ c ∈ Nat.digitChar (n % 10) :: ds, c ∉ delims := by
      intro c hc
      rcases List.mem_cons.1 hc with rfl | hc
      · exact hd
      · exact h c hc
    rw [Nat.toDigitsCore]
    by_cases h0 : n / 10 = 0
    · simp only [h0, if_true]
      exact h1
    · simp only [h0, if_false]
      exact ih _ _ h1

/-- The library `atoi` reads back what `%d` prints, for every `int`. -/
theorem atoi_fmt_d (v : Int) (hlo : -(2 ^ 31) ≤ v) (hhi : v < 2 ^ 31) : atoi (fmt_d v) = v := by
  cases v with
  | ofNat n =>
    obtain ⟨m, cs, hm, e⟩ := toDigitsCore_head (n + 1) n [] (Nat.lt_succ_self n)
    obtain ⟨-, -, hsp, hminus, hplus, -⟩ := digitChar_isdigit m hm
    have hv := strtol_digits_toDigits n
    have hn : (n : Int) < 2 ^ 31 := hhi
    unfold atoi strtol fmt_d
    simp only [Nat.toDigits] at hv ⊢
    rw [e] at hv ⊢
    rw [List.dropWhile_cons, hsp]
    simp only [Bool.false_eq_true, if_false]
    split
    · rename_i h; exact absurd (List.cons.inj h).1 hminus
    · rename_i h; exact absurd (List.cons.inj h).1 hplus
    · rw [hv]
      simp only [Int.ofNat_eq_coe] at hn ⊢
      have hmin : min (n : Int) LONG_MAX = n := min_eq_left (by unfold LONG_MAX; omega)
      rw [hmin]
      unfold toInt32
      omega
  | negSucc n =>
    have hv := strtol_digits_toDigits (n + 1)
    have hn : -(2 ^ 31 : Int) ≤ Int.negSucc n := hlo
    unfold atoi strtol fmt_d
    rw [List.dropWhile_cons]
    simp only [show isspace '-' = false by decide, Bool.false_eq_true, if_false]
    rw [hv]
    rw [Int.negSucc_eq] at hn ⊢
    have hmax : max (-((n + 1 : Nat) : Int)) LONG_MIN = -((n + 1 : Nat) : Int) :=
      max_eq_left (by unfold LONG_MIN; push_cast; omega)
    rw [hmax]
    unfold toInt32
    push_cast
    omega

theorem fmt_d_token (v : Int) : fmt_d v ≠ [] ∧ ∀ c ∈ fmt_d v, c ∉ delims := by
  cases v with
  | ofNat n =>
    obtain ⟨m, cs, -, e⟩ := toDigitsCore_head (n + 1) n [] (Nat.lt_succ_self n)
    refine ⟨?_, toDigitsCore_no_delim _ _ _ (by simp)⟩
    simp only [fmt_d, Nat.toDigits, e]
    exact List.cons_ne_nil _ _
  | negSucc n =>
    refine ⟨List.cons_ne_nil _ _, ?_⟩
    intro c hc
    rcases List.mem_cons.1 hc with rfl | hc
    · decide
    · exact toDigitsCore_no_delim _ _ _ (by simp) c hc


/-- Once lines are delivered, the lines `push v_1`, ..., `push v_N` (each value an
`int` in signed decimal) and `pall`, run from the empty stack, print v_N, ..., v_1,
one per line, and nothing on stderr. -/
theorem exec_lines_push_values_then_pall (fuel avail : Nat) (vs : List Int)
    (hv : ∀ v ∈ vs, -(2 ^ 31) ≤ v ∧ v < 2 ^ 31) (hav : vs.length ≤ avail)
    (hfuel : vs.length ≤ fuel) :
    ∃ s1, exec_lines fuel (vs.map (fun v => push_line (fmt_d v)) ++ ["pall\n".toList]) 0
          (init avail) = Outcome.ret s1 ∧
      s1.out = print_lines vs.reverse ∧ s1.err = [] ∧
      is_stack s1.mem none s1.stack vs.reverse = true := by
  have hmap : (vs.map fmt_d).map atoi = vs := by
    rw [List.map_map]
    conv_rhs => rw [← List.map_id vs]
    exact List.map_congr_left (fun v hv1 => atoi_fmt_d v (hv v hv1).1 (hv v hv1).2)
  have ht : ∀ t ∈ vs.map fmt_d, t ≠ [] ∧ ∀ c ∈ t, c ∉ delims := by
    intro t hmem
    obtain ⟨v, -, rfl⟩ := List.mem_map.1 hmem
    exact fmt_d_token v
  obtain ⟨s1, e1, o1, x1, r1⟩ :=
    exec_lines_pushes_then_pall fuel avail (vs.map fmt_d) ht (by simpa using hav)
      (by simpa using hfuel)
  rw [hmap] at o1 r1
  rw [List.map_map] at e1
  exact ⟨s1, e1, o1, x1, r1⟩

/-! ## The argument of `push` -/

theorem parse_and_execute_push_arg (fuel : Nat) (s : State) (ln : Nat)
    (ws d tok rest : List Char) (hws : ∀ c ∈ ws, c ∈ delims) (hd : d ≠ [])
    (hdd : ∀ c ∈ d, c ∈ delims) (hne : tok ≠ []) (htok : ∀ c ∈ tok, c ∉ delims)
    (hrest : ∀ c ∈ rest.head?, c ∈ delims) :
    parse_and_execute fuel (ws ++ "push".toList ++ d ++ tok ++ rest) s ln =
      push fuel s ln (atoi tok) := by
  have hft : first_token (ws ++ "push".toList ++ d ++ tok ++ rest) ws "push".toList
      (d ++ tok ++ rest) := by
    refine ⟨by simp only [List.append_assoc], hws, by decide, by decide, ?_⟩
    intro c hc
    cases d with
    | nil => exact absurd rfl hd
    | cons x xs =>
      simp only [List.cons_append, List.head?_cons, Option.mem_def, Option.some.injEq] at hc
      subst hc
      exact hdd _ (List.mem_cons_self _ _)
  rw [parse_and_execute_first_token fuel s ln _ _ _ _ hft, if_neg (by decide), get_op_func_eq,
    if_pos rfl]
  have hs : strtok (List.drop 1 (d ++ tok ++ rest)) delims = some (tok, rest.drop 1) := by
    cases d with
    | nil => exact absurd rfl hd
    | cons x xs =>
      simp only [List.cons_append, List.drop_succ_cons, List.drop_zero, List.append_assoc]
      rw [strtok_skip _ _ (fun c hc => hdd c (List.mem_cons_of_mem _ hc))]
      exact strtok_token tok rest hne htok hrest
  simp only [hs, Option.map_some']

theorem parse_and_execute_pall_any (fuel : Nat) (s : State) (ln : Nat)
    (ws rest : List Char) (hws : ∀ c ∈ ws, c ∈ delims) (hrest : ∀ c ∈ rest.head?, c ∈ delims) :
    parse_and_execute fuel (ws ++ "pall".toList ++ rest) s ln = pall fuel s ln 0 := by
  have hft : first_token (ws ++ "pall".toList ++ rest) ws "pall".toList rest :=
    ⟨rfl, hws, by decide, by decide, hrest⟩
  rw [parse_and_execute_first_token fuel s ln _ _ _ _ hft, if_neg (by decide), get_op_func_eq,
    if_neg (by decide), if_pos rfl]
  rfl

theorem strtol_digits_not_digit (acc : Nat) (t : List Char)
    (h : ∀ c ∈ t.head?, isdigit c = false) : strtol_digits acc t = acc := by
  cases t with
  | nil => rfl
  | cons c cs =>
    have hc : isdigit c = false := h c (by simp)
    rw [strtol_digits, hc]
    rfl

theorem toInt32_zero : toInt32 0 = 0 := by decide

/-- When no integer starts a string, after the white space `atoi` skips, `atoi`
gives 0. -/
theorem atoi_non_numeric (t : List Char)
    (h : begins_with_integer (t.dropWhile isspace) = false) : atoi t = 0 := by
  unfold atoi strtol
  generalize t.dropWhile isspace = u at h
  split
  · rename_i r
    have : strtol_digits 0 r = 0 := by
      apply strtol_digits_not_digit
      intro c hc
      cases r with
      | nil => simp at hc
      | cons x xs =>
        simp only [List.head?_cons, Option.mem_def, Option.some.injEq] at hc
        subst hc
        simpa [begins_with_integer, isdigit] using h
    rw [this]
    decide
  · rename_i r
    have : strtol_digits 0 r = 0 := by
      apply strtol_digits_not_digit
      intro c hc
      cases r with
      | nil => simp at hc
      | cons x xs =>
        simp only [List.head?_cons, Option.mem_def, Option.some.injEq] at hc
        subst hc
        simpa [begins_with_integer, isdigit] using h
    rw [this]
    decide
  · rename_i r h1 h2
    have : strtol_digits 0 u = 0 := by
      apply strtol_digits_not_digit
      intro c hc
      cases u with
      | nil => simp at hc
      | cons x xs =>
        simp only [List.head?_cons, Option.mem_def, Option.some.injEq] at hc
        subst hc
        simp only [begins_with_integer, Bool.or_eq_false_iff] at h
        exact h.1
    rw [this]
    decide


theorem digits_value_cons (c : Char) (cs : List Char) :
    digits_value (c :: cs) = (c.toNat - 48) * 10 ^ cs.length + digits_value cs := by
  unfold digits_value
  rw [List.reverse_cons, List.map_append, Nat.ofDigits_append]
  simp [Nat.ofDigits_singleton, Nat.mul_comm, Nat.add_comm]

theorem strtol_digits_append (ds : List Char) :
    ∀ (acc : Nat) (rest : List Char), (∀ c ∈ ds, isdigit c = true) →
      strtol_digits acc (ds ++ rest) =
        strtol_digits (acc * 10 ^ ds.length + digits_value ds) rest := by
  induction ds with
  | nil =>
    intro acc rest _
    simp [digits_value]
  | cons c cs ih =>
    intro acc rest h
    have hc : isdigit c = true := h c (List.mem_cons_self _ _)
    rw [List.cons_append, strtol_digits, if_pos hc,
      ih _ _ (fun x hx => h x (List.mem_cons_of_mem _ hx)), digits_value_cons]
    congr 1
    rw [List.length_cons, pow_succ]
    ring

theorem strtol_digits_leading (ds rest : List Char) (hds : ∀ c ∈ ds, isdigit c = true)
    (hrest : ∀ c ∈ rest.head?, isdigit c = false) :
    strtol_digits 0 (ds ++ rest) = digits_value ds := by
  rw [strtol_digits_append ds 0 rest hds, strtol_digits_not_digit _ _ hrest]
  simp

theorem isdigit_facts (c : Char) (h : isdigit c = true) :
    isspace c = false ∧ c ≠ '-' ∧ c ≠ '+' ∧ c ∉ delims := by
  have h1 : 48 ≤ c.toNat ∧ c.toNat ≤ 57 := by
    simpa [isdigit] using h
  refine ⟨?_, ?_, ?_, ?_⟩
  · have : c ≠ ' ' := by
      rintro rfl
      revert h
      decide
    simp only [isspace, Bool.or_eq_false_iff, decide_eq_false_iff_not, Bool.and_eq_false_imp,
      decide_eq_true_eq]
    exact ⟨this, fun _ => by omega⟩
  · rintro rfl
    revert h
    decide
  · rintro rfl
    revert h
    decide
  · intro hm
    simp only [delims, List.mem_cons, List.mem_singleton, List.not_mem_nil, or_false] at hm
    rcases hm with rfl | rfl | rfl <;> revert h <;> decide

/-- The library `atoi` on a token made of an optional sign, decimal digits and a
tail that does not start with a digit: the value of the digits, negated after `-`,
when it fits an `int`. -/
theorem atoi_leading_integer (sign ds rest : List Char)
    (hsign : sign = [] ∨ sign = ['+'] ∨ sign = ['-']) (hne : ds ≠ [])
    (hds : ∀ c ∈ ds, isdigit c = true) (hrest : ∀ c ∈ rest.head?, isdigit c = false)
    (hrange : -(2 ^ 31) ≤ (if sign = ['-'] then -(digits_value ds : Int) else digits_value ds) ∧
      (if sign = ['-'] then -(digits_value ds : Int) else digits_value ds) < 2 ^ 31) :
    atoi (sign ++ ds ++ rest) =
      if sign = ['-'] then -(digits_value ds : Int) else digits_value ds := by
  have hv := strtol_digits_leading ds rest hds hrest
  obtain ⟨d, ds1, rfl⟩ := List.exists_cons_of_ne_nil hne
  obtain ⟨hsp, hm, hp, -⟩ := isdigit_facts d (hds d (List.mem_cons_self _ _))
  rcases hsign with rfl | rfl | rfl
  · simp only [List.nil_append, if_neg (by decide : ¬ ([] : List Char) = ['-'])] at hrange ⊢
    unfold atoi strtol
    simp only [List.cons_append, List.dropWhile_cons, hsp, Bool.false_eq_true, if_false]
    split
    · rename_i h; exact absurd (List.cons.inj h).1 hm
    · rename_i h; exact absurd (List.cons.inj h).1 hp
    · simp only [List.cons_append] at hv
      rw [hv]
      have hmin : min ((digits_value (d :: ds1) : Nat) : Int) LONG_MAX = digits_value (d :: ds1) :=
        min_eq_left (by unfold LONG_MAX; omega)
      rw [hmin]
      unfold toInt32
      omega
  · simp only [if_neg (by decide : ¬ ['+'] = ['-'])] at hrange ⊢
    unfold atoi strtol
    simp only [List.cons_append, List.nil_append, List.dropWhile_cons,
      show isspace '+' = false by decide, Bool.false_eq_true, if_false]
    simp only [List.cons_append] at hv
    rw [hv]
    have hmin : min ((digits_value (d :: ds1) : Nat) : Int) LONG_MAX = digits_value (d :: ds1) :=
      min_eq_left (by unfold LONG_MAX; omega)
    rw [hmin]
    unfold toInt32
    omega
  · simp only [if_true] at hrange ⊢
    unfold atoi strtol
    simp only [List.cons_append, List.nil_append, List.dropWhile_cons,
      show isspace '-' = false by decide, Bool.false_eq_true, if_false]
    simp only [List.cons_append] at hv
    rw [hv]
    have hmax : max (-((digits_value (d :: ds1) : Nat) : Int)) LONG_MIN =
        -((digits_value (d :: ds1) : Nat) : Int) :=
      max_eq_left (by unfold LONG_MIN; omega)
    rw [hmax]
    unfold toInt32
    omega

/-! ## The stack as a doubly linked list -/

theorem is_path_none (mem : List stack_t) (p : Option Nat) (as : List Nat) :
    is_path mem p none as = true ↔ as = [] := by
  cases as <;> simp [is_path]

theorem is_path_cons (mem : List stack_t) (p : Option Nat) (a b : Nat) (bs : List Nat) :
    is_path mem p (some a) (b :: bs) =
      match mem.get? a with
      | none => false
      | some node => a = b && node.prev = p && is_path mem (some a) node.next bs := rfl

theorem is_path_some (mem : List stack_t) (p : Option Nat) (a : Nat) (as : List Nat) :
    is_path mem p (some a) as = true ↔
      ∃ node bs, as = a :: bs ∧ mem.get? a = some node ∧ node.prev = p ∧
        is_path mem (some a) node.next bs = true := by
  cases as with
  | nil => simp [is_path]
  | cons b bs =>
    rw [is_path_cons]
    cases hg : mem.get? a with
    | none => simp
    | some node =>
      simp only [Bool.and_eq_true, decide_eq_true_eq, List.cons.injEq, Option.some.injEq]
      constructor
      · rintro ⟨⟨h1, h2⟩, h3⟩
        exact ⟨node, bs, ⟨h1.symm, rfl⟩, rfl, h2, h3⟩
      · rintro ⟨node', bs', ⟨h1, rfl⟩, rfl, h2, h3⟩
        exact ⟨⟨h1.symm, h2⟩, h3⟩

theorem is_path_head (mem : List stack_t) (p head : Option Nat) (as : List Nat)
    (h : is_path mem p head as = true) : head = as.head? := by
  cases head with
  | none => rw [(is_path_none mem p as).1 h]; rfl
  | some a =>
    obtain ⟨node, bs, rfl, -⟩ := (is_path_some mem p a as).1 h
    rfl

theorem is_path_of_is_stack (mem : List stack_t) (es : List Int) :
    ∀ (p head : Option Nat), is_stack mem p head es = true →
      ∃ as, as.length = es.length ∧ is_path mem p head as = true := by
  induction es with
  | nil =>
    intro p head h
    cases head with
    | none => exact ⟨[], rfl, rfl⟩
    | some a => simp [is_stack] at h
  | cons v vs ih =>
    intro p head h
    cases head with
    | none => simp [is_stack] at h
    | some a =>
      obtain ⟨node, vs1, e1, g1, hp, r1⟩ := (is_stack_some mem p a _).1 h
      cases e1
      obtain ⟨as, hl, ha⟩ := ih (some a) node.next r1
      exact ⟨a :: as, by simp [hl], (is_path_some mem p a _).2 ⟨node, as, rfl, g1, hp, ha⟩⟩

theorem is_path_unique (mem : List stack_t) (as : List Nat) :
    ∀ (p q head : Option Nat) (bs : List Nat),
      is_path mem p head as = true → is_path mem q head bs = true → as = bs := by
  induction as with
  | nil =>
    intro p q head bs h1 h2
    cases head with
    | none => exact ((is_path_none mem q bs).1 h2).symm
    | some a => simp [is_path] at h1
  | cons a as ih =>
    intro p q head bs h1 h2
    cases head with
    | none => simp [is_path] at h1
    | some x =>
      obtain ⟨n1, t1, e1, g1, -, r1⟩ := (is_path_some mem p x _).1 h1
      obtain ⟨n2, t2, e2, g2, -, r2⟩ := (is_path_some mem q x _).1 h2
      rw [g1] at g2
      cases g2
      cases e1
      rw [e2, ih _ _ _ _ r1 r2]

theorem is_path_suffix (mem : List stack_t) (l1 : List Nat) :
    ∀ (p head : Option Nat) (b : Nat) (l2 : List Nat),
      is_path mem p head (l1 ++ b :: l2) = true →
      ∃ q, is_path mem q (some b) (b :: l2) = true := by
  induction l1 with
  | nil =>
    intro p head b l2 h
    have := is_path_head mem p head _ h
    subst this
    exact ⟨p, h⟩
  | cons a l1 ih =>
    intro p head b l2 h
    have := is_path_head mem p head _ h
    subst this
    obtain ⟨node, bs, e, -, -, r⟩ := (is_path_some mem p a _).1 h
    simp only [List.cons_append, List.cons.injEq, true_and] at e
    subst e
    exact ih _ _ _ _ r

theorem is_path_nodup (mem : List stack_t) (as : List Nat) :
    ∀ (p head : Option Nat), is_path mem p head as = true → as.Nodup := by
  induction as with
  | nil => intro _ _ _; exact List.nodup_nil
  | cons a as ih =>
    intro p head h
    have := is_path_head mem p head _ h
    subst this
    obtain ⟨node, bs, e, -, -, r⟩ := (is_path_some mem p a _).1 h
    cases e
    refine List.nodup_cons.2 ⟨?_, ih _ _ r⟩
    intro hmem
    obtain ⟨l1, l2, rfl⟩ := List.append_of_mem hmem
    obtain ⟨q, hq⟩ := is_path_suffix mem l1 _ _ a l2 r
    have := is_path_unique mem _ _ _ _ _ h hq
    have hlen := congrArg List.length this
    simp at hlen
    omega


theorem is_path_links (mem : List stack_t) (as : List Nat) :
    ∀ (p head : Option Nat), is_path mem p head as = true →
      ∀ i, i < as.length →
        ∃ node, mem.get? (as.getD i 0) = some node ∧ node.next = as.get? (i + 1) ∧
          node.prev = if i = 0 then p else as.get? (i - 1) := by
  induction as with
  | nil => intro p head _ i hi; simp at hi
  | cons a as ih =>
    intro p head h i hi
    have := is_path_head mem p head _ h
    subst this
    obtain ⟨node, bs, e, g, hp, r⟩ := (is_path_some mem p a _).1 h
    cases e
    cases i with
    | zero =>
      refine ⟨node, by simpa using g, ?_, by simpa using hp⟩
      rw [is_path_head mem _ _ _ r]
      cases as <;> rfl
    | succ j =>
      have hj : j < as.length := by simpa using hi
      obtain ⟨nd, g1, n1, p1⟩ := ih _ _ r j hj
      refine ⟨nd, by simpa using g1, by simpa using n1, ?_⟩
      rw [p1]
      cases j with
      | zero => rfl
      | succ k => simp

theorem well_formed_of_is_path (s : State) (as : List Nat)
    (h : is_path s.mem none s.stack as = true) : well_formed s as := by
  have hl := is_path_links s.mem as none s.stack h
  refine ⟨is_path_nodup s.mem as none s.stack h, is_path_head s.mem none s.stack as h, ?_, ?_, ?_⟩
  · intro i hi
    obtain ⟨node, g, n, -⟩ := hl i hi
    exact ⟨node, g, n⟩
  · intro a node hs hg
    rw [hs] at h
    obtain ⟨nd, bs, -, g, hp, -⟩ := (is_path_some s.mem none a as).1 h
    rw [hg] at g
    cases g
    exact hp
  · intro a node b ha hg hn
    obtain ⟨i, hi, rfl⟩ := List.getElem_of_mem ha
    obtain ⟨nd, g, n, -⟩ := hl i hi
    have e : as.getD i 0 = as[i] := by simp [List.getD, hi]
    rw [e, hg] at g
    cases g
    rw [hn] at n
    have hi1 : i + 1 < as.length := by
      by_contra hc
      rw [List.get?_eq_none.2 (by omega)] at n
      cases n
    obtain ⟨nb, g1, -, p1⟩ := hl (i + 1) hi1
    have e1 : as.getD (i + 1) 0 = b := by
      have : as.get? (i + 1) = some as[i + 1] := by simp [hi1]
      rw [this] at n
      cases n
      simp [List.getD, hi1]
    rw [e1] at g1
    refine ⟨nb, g1, ?_⟩
    rw [p1]
    simp [hi]

theorem well_formed_of_is_stack (s : State) (es : List Int)
    (h : is_stack s.mem none s.stack es = true) :
    ∃ addrs, addrs.length = es.length ∧ well_formed s addrs := by
  obtain ⟨as, hl, ha⟩ := is_path_of_is_stack s.mem es none s.stack h
  exact ⟨as, hl, well_formed_of_is_path s as ha⟩

theorem run_calls_is_stack (fuel : Nat) (cs : List call) :
    ∀ (s : State) (es : List Int), is_stack s.mem none s.stack es = true →
      (pushed_values cs).length ≤ s.avail → es.length + (pushed_values cs).length ≤ fuel →
      ∃ s1, run_calls fuel cs s = Outcome.ret s1 ∧
        is_stack s1.mem none s1.stack ((pushed_values cs).reverse ++ es) = true ∧
        s1.err = s.err := by
  induction cs with
  | nil =>
    intro s es h _ _
    exact ⟨s, rfl, by simpa [pushed_values] using h, rfl⟩
  | cons c cs ih =>
    intro s es h hav hfuel
    cases c with
    | push ln v =>
      simp only [pushed_values, List.length_cons] at hav hfuel
      obtain ⟨s1, e1, r1, -, -, a1, -, x1⟩ := push_is_stack fuel s ln v es h (by omega)
      obtain ⟨s2, e2, r2, x2⟩ := ih s1 (v :: es) r1 (by omega)
        (by simp only [List.length_cons]; omega)
      refine ⟨s2, ?_, ?_, x2.trans x1⟩
      · rw [run_calls, e1]
        exact e2
      · simpa [pushed_values] using r2
    | pall ln a =>
      simp only [pushed_values] at hav hfuel
      have e1 := pall_of_is_stack s es fuel ln a h (by omega)
      obtain ⟨s2, e2, r2, x2⟩ := ih { s with out := s.out ++ print_lines es } es h hav hfuel
      refine ⟨s2, ?_, ?_, x2⟩
      · rw [run_calls, e1]
        exact e2
      · simpa [pushed_values] using r2

/-! ## What a line asks for -/

theorem parse_and_execute_decode (fuel : Nat) (line : List Char) (s : State) (ln : Nat) :
    parse_and_execute fuel line s ln =
      match decode line with
      | instr.skip => Outcome.ret s
      | instr.push v => push fuel s ln v
      | instr.pall => pall fuel s ln 0
      | instr.unknown tok =>
        Outcome.exit EXIT_FAILURE { s with err := s.err ++ unknown_diagnostic ln tok } := by
  unfold parse_and_execute decode
  cases h : strtok line delims with
  | none => rfl
  | some r =>
    obtain ⟨opcode, saved⟩ := r
    simp only []
    by_cases hc : opcode.head? = some '#'
    · simp only [hc, if_true]
    · simp only [hc, if_false]
      rw [get_op_func_eq]
      by_cases h1 : opcode = "push".toList
      · simp only [h1, if_true]
        cases strtok saved delims with
        | none => rfl
        | some r1 => rfl
      · by_cases h2 : opcode = "pall".toList
        · simp only [h1, h2, if_true, if_false]
          rfl
        · simp only [h1, h2, if_false]
          rfl

theorem push_outcome (fuel : Nat) (s : State) (ln : Nat) (v : Int) :
    (∃ s1, push fuel s ln v = Outcome.ret s1) ∨ push fuel s ln v = Outcome.undef ∨
      push fuel s ln v =
        Outcome.exit EXIT_FAILURE { s with err := s.err ++ "Error: malloc failed\n".toList } := by
  by_cases h : 0 < s.avail
  · rw [push_eq fuel s ln v h]
    cases s.stack with
    | none => exact Or.inl ⟨_, rfl⟩
    | some head =>
      simp only []
      cases (s.mem ++ [({ n := v, prev := none, next := some head } : stack_t)]).get? head with
      | none => exact Or.inr (Or.inl rfl)
      | some hd => exact Or.inl ⟨_, rfl⟩
  · refine Or.inr (Or.inr ?_)
    unfold push malloc
    rw [if_neg h]

theorem pall_outcome (fuel : Nat) (s : State) (ln : Nat) (a : Int) :
    (∃ s1, pall fuel s ln a = Outcome.ret s1) ∨ pall fuel s ln a = Outcome.undef ∨
      pall fuel s ln a = Outcome.timeout := by
  rcases pall_loop_frame fuel s s.stack with ⟨s1, h, -⟩ | h | h
  · exact Or.inl ⟨s1, h⟩
  · exact Or.inr (Or.inl h)
  · exact Or.inr (Or.inr h)

theorem State_err_append_cancel (s : State) (d e : List Char)
    (h : ({ s with err := s.err ++ d } : State) = { s with err := s.err ++ e }) : d = e := by
  have := congrArg State.err h
  exact List.append_cancel_left this

theorem known_is_not_unknown_failure (fuel : Nat) (line : List Char) (s : State) (ln : Nat)
    (h : ∀ tok, decode line ≠ instr.unknown tok) (d : List Char) :
    ¬ is_unknown_failure s (parse_and_execute fuel line s ln) d := by
  rintro ⟨ho, n, tok, hd⟩
  rw [parse_and_execute_decode] at ho
  cases hdec : decode line with
  | skip =>
    rw [hdec] at ho
    cases ho
  | push v =>
    rw [hdec] at ho
    simp only [] at ho
    rcases push_outcome fuel s ln v with ⟨s1, h1⟩ | h1 | h1
    · rw [h1] at ho; cases ho
    · rw [h1] at ho; cases ho
    · rw [h1] at ho
      have e := State_err_append_cancel s _ _ (Outcome.exit.inj ho).2
      rw [hd] at e
      have := congrArg List.head? e
      revert this
      simp
  | pall =>
    rw [hdec] at ho
    simp only [] at ho
    rcases pall_outcome fuel s ln 0 with ⟨s1, h1⟩ | h1 | h1 <;> rw [h1] at ho <;> cases ho
  | unknown t => exact h t hdec

theorem unknown_is_unknown_failure (fuel : Nat) (line : List Char) (s : State) (ln : Nat)
    (tok : List Char) (h : decode line = instr.unknown tok) :
    is_unknown_failure s (parse_and_execute fuel line s ln) (unknown_diagnostic ln tok) := by
  rw [parse_and_execute_decode, h]
  exact ⟨rfl, toInt32 ln, tok, rfl⟩

/-! ## Programs of known lines, on lines that have been read -/

theorem pushed_by_append (a b : List instr) : pushed_by (a ++ b) = pushed_by a ++ pushed_by b := by
  induction a with
  | nil => rfl
  | cons i a ih =>
    cases i <;> simp [pushed_by, ih]

theorem known_line_step (fuel : Nat) (s : State) (ln : Nat) (line : List Char)
    (before : List instr) (hk : is_known line = true)
    (hrep : is_stack s.mem none s.stack (pushed_by before).reverse = true)
    (hav : (pushed_by [decode line]).length ≤ s.avail)
    (hfuel : (pushed_by before).length ≤ fuel) :
    ∃ s1, parse_and_execute fuel line s ln = Outcome.ret s1 ∧
      is_stack s1.mem none s1.stack (pushed_by (before ++ [decode line])).reverse = true ∧
      s1.out = s.out ++ expected_out_from before [decode line] ∧ s1.err = s.err ∧
      s1.avail = s.avail - (pushed_by [decode line]).length := by
  rw [parse_and_execute_decode]
  cases hd : decode line with
  | skip =>
    refine ⟨s, rfl, ?_, ?_, rfl, ?_⟩
    · simpa [pushed_by_append, pushed_by] using hrep
    · simp [expected_out_from]
    · simp [pushed_by]
  | push v =>
    rw [hd] at hav
    obtain ⟨s1, e1, r1, -, -, a1, o1, x1⟩ :=
      push_is_stack fuel s ln v _ hrep (by simpa [pushed_by] using hav)
    refine ⟨s1, e1, ?_, ?_, x1, ?_⟩
    · simpa [pushed_by_append, pushed_by] using r1
    · simp [expected_out_from, o1]
    · simpa [pushed_by] using a1
  | pall =>
    refine ⟨_, pall_of_is_stack s _ fuel ln 0 hrep (by simpa using hfuel), ?_, ?_, rfl, ?_⟩
    · simpa [pushed_by_append, pushed_by] using hrep
    · simp [expected_out_from]
    · simp [pushed_by]
  | unknown t =>
    simp [is_known, hd] at hk

theorem expected_out_from_cons (before : List instr) (i : instr) (r : List instr) :
    expected_out_from before (i :: r) =
      expected_out_from before [i] ++ expected_out_from (before ++ [i]) r := by
  cases i <;> simp [expected_out_from]

theorem exec_lines_known_from (fuel : Nat) (lines : List (List Char)) :
    ∀ (n : Nat) (s : State) (before : List instr),
      (∀ l ∈ lines, is_known l = true) →
      is_stack s.mem none s.stack (pushed_by before).reverse = true →
      (pushed_by (lines.map decode)).length ≤ s.avail →
      (pushed_by (before ++ lines.map decode)).length ≤ fuel →
      ∃ s1, exec_lines fuel lines n s = Outcome.ret s1 ∧
        is_stack s1.mem none s1.stack (pushed_by (before ++ lines.map decode)).reverse = true ∧
        s1.out = s.out ++ expected_out_from before (lines.map decode) ∧ s1.err = s.err := by
  induction lines with
  | nil =>
    intro n s before _ hrep _ _
    exact ⟨s, rfl, by simpa using hrep, by simp [expected_out_from], rfl⟩
  | cons l ls ih =>
    intro n s before hk hrep hav hfuel
    have hav' : (pushed_by [decode l]).length + (pushed_by (ls.map decode)).length ≤ s.avail := by
      have := pushed_by_append [decode l] (ls.map decode)
      simp only [List.singleton_append] at this
      rw [List.map_cons, this, List.length_append] at hav
      exact hav
    have hf' : (pushed_by before).length + (pushed_by [decode l]).length +
        (pushed_by (ls.map decode)).length ≤ fuel := by
      have := pushed_by_append [decode l] (ls.map decode)
      simp only [List.singleton_append] at this
      rw [List.map_cons, pushed_by_append, this, List.length_append, List.length_append] at hfuel
      omega
    obtain ⟨s1, e1, r1, o1, x1, a1⟩ :=
      known_line_step fuel s ((n + 1) % 2 ^ 32) l before (hk l (List.mem_cons_self _ _)) hrep
        (by omega) (by omega)
    obtain ⟨s2, e2, r2, o2, x2⟩ :=
      ih ((n + 1) % 2 ^ 32) s1 (before ++ [decode l])
        (fun u hu => hk u (List.mem_cons_of_mem _ hu)) r1 (by rw [a1]; omega)
        (by rw [pushed_by_append, pushed_by_append, List.length_append, List.length_append]; omega)
    refine ⟨s2, ?_, ?_, ?_, x2.trans x1⟩
    · rw [exec_lines, e1]
      exact e2
    · simpa [List.append_assoc] using r2
    · rw [o2, o1, List.map_cons, List.append_assoc]
      exact congrArg _ (expected_out_from_cons before (decode l) _).symm


/-- Once lines are delivered, a program of push, pall, blank and comment lines, run
from the empty stack, returns with the expected output on stdout, nothing on
stderr, and the pushed values on the stack, last pushed first. -/
theorem exec_lines_known (fuel avail : Nat) (lines : List (List Char))
    (hk : ∀ l ∈ lines, is_known l = true)
    (hav : (pushed_by (lines.map decode)).length ≤ avail)
    (hfuel : (pushed_by (lines.map decode)).length ≤ fuel) :
    ∃ s1, exec_lines fuel lines 0 (init avail) = Outcome.ret s1 ∧
      s1.out = expected_out (lines.map decode) ∧ s1.err = [] ∧
      is_stack s1.mem none s1.stack (pushed_by (lines.map decode)).reverse = true := by
  obtain ⟨s1, e1, r1, o1, x1⟩ :=
    exec_lines_known_from fuel lines 0 (init avail) [] hk rfl hav (by simpa using hfuel)
  exact ⟨s1, e1, by simpa [expected_out, init] using o1, x1, by simpa using r1⟩

/-- Once lines are delivered, the stack never shrinks: after every initial part of
such a program the stack holds the values pushed so far, an initial part of the
values pushed in all. -/
theorem exec_lines_stack_grows (fuel avail : Nat) (p q : List (List Char))
    (hk : ∀ l ∈ p ++ q, is_known l = true)
    (hav : (pushed_by ((p ++ q).map decode)).length ≤ avail)
    (hfuel : (pushed_by ((p ++ q).map decode)).length ≤ fuel) :
    ∃ s1, exec_lines fuel p 0 (init avail) = Outcome.ret s1 ∧
      is_stack s1.mem none s1.stack (pushed_by (p.map decode)).reverse = true ∧
      pushed_by (p.map decode) <+: pushed_by ((p ++ q).map decode) := by
  have hpre : pushed_by ((p ++ q).map decode) =
      pushed_by (p.map decode) ++ pushed_by (q.map decode) := by
    rw [List.map_append, pushed_by_append]
  have hlen : (pushed_by (p.map decode)).length ≤ (pushed_by ((p ++ q).map decode)).length := by
    rw [hpre, List.length_append]
    omega
  obtain ⟨s1, e1, -, -, r1⟩ :=
    exec_lines_known fuel avail p (fun l hl => hk l (List.mem_append_left _ hl)) (by omega)
      (by omega)
  exact ⟨s1, e1, r1, hpre ▸ List.prefix_append _ _⟩

/-- Once lines are delivered, the first line with an unknown opcode ends the run with
failure and its diagnostic alone on stderr. -/
theorem exec_lines_first_unknown (fuel avail : Nat) (p rest : List (List Char))
    (bad tok : List Char) (hk : ∀ l ∈ p, is_known l = true)
    (hbad : decode bad = instr.unknown tok)
    (hav : (pushed_by (p.map decode)).length ≤ avail)
    (hfuel : (pushed_by (p.map decode)).length ≤ fuel) :
    ∃ s1, exec_lines fuel (p ++ bad :: rest) 0 (init avail) = Outcome.exit EXIT_FAILURE s1 ∧
      s1.err = unknown_diagnostic ((p.length + 1) % 2 ^ 32) tok ∧
      s1.out = expected_out (p.map decode) := by
  obtain ⟨s1, e1, o1, x1, -⟩ := exec_lines_known fuel avail p hk hav hfuel
  have e : ((0 + p.length) % 2 ^ 32 + 1) % 2 ^ 32 = (p.length + 1) % 2 ^ 32 := by omega
  refine ⟨{ s1 with err := s1.err ++ unknown_diagnostic ((p.length + 1) % 2 ^ 32) tok }, ?_, ?_,
    o1⟩
  · rw [exec_lines_append fuel p (bad :: rest) 0 _ (by norm_num), e1]
    simp only []
    rw [exec_lines, e, parse_and_execute_decode, hbad]
  · simp [x1]

theorem first_unknown_split (lines : List (List Char))
    (h : ¬ ∀ l ∈ lines, is_known l = true) :
    ∃ p bad rest tok, lines = p ++ bad :: rest ∧ (∀ l ∈ p, is_known l = true) ∧
      decode bad = instr.unknown tok := by
  induction lines with
  | nil => exact absurd (fun l hl => absurd hl (List.not_mem_nil l)) h
  | cons l ls ih =>
    by_cases hl : is_known l = true
    · have h' : ¬ ∀ x ∈ ls, is_known x = true := by
        intro hall
        apply h
        intro x hx
        rcases List.mem_cons.1 hx with rfl | hx
        · exact hl
        · exact hall x hx
      obtain ⟨p, bad, rest, tok, e, hp, hb⟩ := ih h'
      refine ⟨l :: p, bad, rest, tok, by rw [e]; rfl, ?_, hb⟩
      intro x hx
      rcases List.mem_cons.1 hx with rfl | hx
      · exact hl
      · exact hp x hx
    · cases hd : decode l with
      | unknown t => exact ⟨[], l, ls, t, rfl, fun _ hx => absurd hx (List.not_mem_nil _), hd⟩
      | skip => simp [is_known, hd] at hl
      | push v => simp [is_known, hd] at hl
      | pall => simp [is_known, hd] at hl

/-- Once lines are delivered and with memory and fuel for the pushes, the run over
the lines returns with nothing on stderr exactly when no line has an unknown
opcode; otherwise it exits with failure and one diagnostic on stderr. -/
theorem exec_lines_success_iff (fuel avail : Nat) (lines : List (List Char))
    (hav : (pushed_by (lines.map decode)).length ≤ avail)
    (hfuel : (pushed_by (lines.map decode)).length ≤ fuel) :
    ((∃ s1, exec_lines fuel lines 0 (init avail) = Outcome.ret s1 ∧ s1.err = []) ↔
        ∀ l ∈ lines, is_known l = true) ∧
      ((¬ ∀ l ∈ lines, is_known l = true) →
        ∃ s1 k tok, exec_lines fuel lines 0 (init avail) = Outcome.exit EXIT_FAILURE s1 ∧
          s1.err = unknown_diagnostic k tok) := by
  have hbad : (¬ ∀ l ∈ lines, is_known l = true) →
      ∃ s1 k tok, exec_lines fuel lines 0 (init avail) = Outcome.exit EXIT_FAILURE s1 ∧
        s1.err = unknown_diagnostic k tok := by
    intro h
    obtain ⟨p, bad, rest, tok, e, hp, hb⟩ := first_unknown_split lines h
    have hle : (pushed_by (p.map decode)).length ≤ (pushed_by (lines.map decode)).length := by
      rw [e, List.map_append, pushed_by_append, List.length_append]
      omega
    obtain ⟨s1, e1, x1, -⟩ :=
      exec_lines_first_unknown fuel avail p rest bad tok hp hb (by omega) (by omega)
    exact ⟨s1, _, tok, e ▸ e1, x1⟩
  refine ⟨⟨?_, ?_⟩, hbad⟩
  · rintro ⟨s1, e1, -⟩
    by_contra h
    obtain ⟨s2, k, tok, e2, -⟩ := hbad h
    rw [e1] at e2
    cases e2
  · intro h
    obtain ⟨s1, e1, -, x1, -⟩ := exec_lines_known fuel avail lines h hav hfuel
    exact ⟨s1, e1, x1⟩

/-! ## The claims -/

/-- C1: on the file `push 1`, `push 2`, `push 3`, `pall` the run of `main` ends with
status 0 having written nothing at all, whatever the fuel and the memory: the loop of
`process_file` calls `fgets` with a buffer size of 0, which returns `NULL` before a
line is read. The expected `3\n2\n1\n` is what the loop body prints once it is
handed these four lines. -/
theorem main_push_push_push_pall_prints_nothing (fuel avail : Nat) :
    main (fuel + 1) ["monty".toList, "prog.m".toList]
        (fun _ => some "push 1\npush 2\npush 3\npall\n".toList) (init avail) =
      Outcome.exit 0 (init avail) ∧
    (init avail).out = [] ∧
    ∃ s1, exec_lines 3 ["push 1\n".toList, "push 2\n".toList, "push 3\n".toList,
        "pall\n".toList] 0 (init 3) = Outcome.ret s1 ∧ s1.out = "3\n2\n1\n".toList :=
  ⟨rfl, rfl, _, rfl, rfl⟩

/-- C2: at line number 2147483648 the diagnostic for the unknown opcode `foo` reads
`L-2147483648: unknown instruction foo`: the `unsigned int` line number is printed
with `%d`. -/
theorem parse_and_execute_unknown_at_2147483648 (fuel : Nat) (s : State) :
    parse_and_execute fuel "foo\n".toList s 2147483648 =
      Outcome.exit 1
        { s with err := s.err ++ "L-2147483648: unknown instruction foo\n".toList } :=
  rfl

/-- C3: on the file `push 1`, `pall`, `foo`, `push 2`, `pall` the run of `main` does not
halt at `foo` with a failure: it ends with status 0, stdout and stderr empty, as no
line is read. Handed the same lines, the loop body stops at `foo` with `1\n` on
stdout, the diagnostic for line 3 on stderr and status 1. -/
theorem main_push_pall_foo_exits_with_success (fuel avail : Nat) :
    main (fuel + 1) ["monty".toList, "prog.m".toList]
        (fun _ => some "push 1\npall\nfoo\npush 2\npall\n".toList) (init avail) =
      Outcome.exit 0 (init avail) ∧
    ∃ s1, exec_lines 3 ["push 1\n".toList, "pall\n".toList, "foo\n".toList,
        "push 2\n".toList, "pall\n".toList] 0 (init 3) = Outcome.exit 1 s1 ∧
      s1.out = "1\n".toList ∧ s1.err = "L3: unknown instruction foo\n".toList :=
  ⟨rfl, _, rfl, rfl, rfl⟩

/-- C4: `process_file` writes no diagnostic for any file: it returns with stdout and
stderr as they were, the stack empty, without having counted a line. For the file
`push 1`, `pall`, `foo` in particular stderr stays empty, where the loop body handed
these lines writes `L3: unknown instruction foo`. -/
theorem process_file_writes_no_diagnostic (fuel : Nat) (file : List Char) (s : State) :
    process_file (fuel + 1) file s = Outcome.ret { s with stack := none } ∧
    process_file (fuel + 1) "push 1\npall\nfoo\n".toList (init 3) = Outcome.ret (init 3) ∧
    ∃ s1, exec_lines 3 ["push 1\n".toList, "pall\n".toList, "foo\n".toList] 0 (init 3) =
        Outcome.exit 1 s1 ∧ s1.err = "L3: unknown instruction foo\n".toList :=
  ⟨rfl, rfl, _, rfl, rfl⟩

/-- C5, as stated: a line of white space only can end the run as an unknown
instruction. The line made of a carriage return and a newline (an empty line of a
file with CRLF line ends) is white space only, yet its carriage return is a token,
and `parse_and_execute` writes the diagnostic and exits with failure. -/
theorem carriage_return_line_is_unknown_instruction :
    (∀ c ∈ "\r\n".toList, isspace c = true) ∧
      parse_and_execute 0 "\r\n".toList (init 0) 1 =
        Outcome.exit 1 { init 0 with err := "L1: unknown instruction \r\n".toList } ∧
      parse_and_execute 0 "\r\n".toList (init 0) 1 ≠ Outcome.ret (init 0) :=
  ⟨by decide, rfl, by decide⟩

/-- C5, amended: a line that is empty or made of spaces, tabs and newlines only, or
whose first token starts with `#` whatever follows, makes `parse_and_execute` return
with the state unchanged: same stack, nothing written to stdout or stderr, no exit. -/
theorem blank_or_comment_line_is_skipped (fuel : Nat) (s : State) (ln : Nat)
    (line : List Char)
    (h : (∀ c ∈ line, c ∈ delims) ∨
      ∃ ws rest, line = ws ++ '#' :: rest ∧ ∀ c ∈ ws, c ∈ delims) :
    parse_and_execute fuel line s ln = Outcome.ret s := by
  rcases h with h | ⟨ws, rest, rfl, h⟩
  · unfold parse_and_execute
    rw [strtok_blank line h]
  · obtain ⟨tok, saved, ht⟩ := strtok_comment ws rest h
    unfold parse_and_execute
    rw [ht]
    rfl

theorem blank_or_comment_line_is_skipped_witness :
    ((∀ c ∈ " \t# foo 1\n".toList, c ∈ delims) ∨
      ∃ ws rest, " \t# foo 1\n".toList = ws ++ '#' :: rest ∧ ∀ c ∈ ws, c ∈ delims) ∧
      parse_and_execute 0 " \t# foo 1\n".toList two_nodes 4 = Outcome.ret two_nodes :=
  have h : (∀ c ∈ " \t# foo 1\n".toList, c ∈ delims) ∨
      ∃ ws rest, " \t# foo 1\n".toList = ws ++ '#' :: rest ∧ ∀ c ∈ ws, c ∈ delims :=
    Or.inr ⟨" \t".toList, " foo 1\n".toList, rfl, by decide⟩
  ⟨h, blank_or_comment_line_is_skipped 0 two_nodes 4 _ h⟩

/-- C6: for a stack holding `es` from top to bottom, `pall` (given fuel for `es.length`
iterations) returns having appended to stdout exactly the lines of `es` in that order,
each value in signed decimal followed by a newline, with stderr and everything else
unchanged; on the empty stack it returns with nothing written, whatever the fuel. -/
theorem pall_prints_top_to_bottom (s : State) (es : List Int) (fuel ln : Nat) (arg : Int)
    (hrep : is_stack s.mem none s.stack es = true) (hfuel : es.length ≤ fuel) :
    pall fuel s ln arg = Outcome.ret { s with out := s.out ++ print_lines es } ∧
      (s.stack = none → ∀ k, pall k s ln arg = Outcome.ret s) := by
  refine ⟨pall_of_is_stack s es fuel ln arg hrep hfuel, ?_⟩
  intro hs k
  unfold pall
  rw [hs]
  cases k <;> rfl

theorem pall_prints_top_to_bottom_witness :
    is_stack two_nodes.mem none two_nodes.stack [2, 1] = true ∧ [(2 : Int), 1].length ≤ 2 ∧
      (pall 2 two_nodes 7 0 =
          Outcome.ret { two_nodes with out := two_nodes.out ++ print_lines [2, 1] } ∧
        (two_nodes.stack = none → ∀ k, pall k two_nodes 7 0 = Outcome.ret two_nodes)) :=
  ⟨by decide, by decide, pall_prints_top_to_bottom two_nodes [2, 1] 2 7 0 (by decide) (by decide)⟩

/-- C7: `pall` never mutates the stack. Whenever it returns, heap and stack pointer
are those of the call; on a stack holding `es` it does return (given fuel), the
stack still holds `es`, and a second `pall`, called directly or as the next `pall`
line, prints the same lines again. -/
theorem pall_never_mutates (s : State) (es : List Int) (fuel ln : Nat) (arg : Int)
    (hrep : is_stack s.mem none s.stack es = true) (hfuel : es.length ≤ fuel) :
    (∀ (t : State) (k m : Nat) (a : Int) (t1 : State),
        pall k t m a = Outcome.ret t1 → t1.mem = t.mem ∧ t1.stack = t.stack) ∧
      ∃ s1, pall fuel s ln arg = Outcome.ret s1 ∧ s1.mem = s.mem ∧ s1.stack = s.stack ∧
        is_stack s1.mem none s1.stack es = true ∧
        (∀ (m : Nat) (a : Int),
          pall fuel s1 m a =
            Outcome.ret { s with out := s.out ++ print_lines es ++ print_lines es }) ∧
        parse_and_execute fuel "pall\n".toList s ln = Outcome.ret s1 ∧
        parse_and_execute fuel "pall\n".toList s1 (ln + 1) =
          Outcome.ret { s with out := s.out ++ print_lines es ++ print_lines es } := by
  have h2 : ∀ (m : Nat) (a : Int),
      pall fuel { s with out := s.out ++ print_lines es } m a =
        Outcome.ret { s with out := s.out ++ print_lines es ++ print_lines es } :=
    fun m a => pall_of_is_stack { s with out := s.out ++ print_lines es } es fuel m a hrep hfuel
  constructor
  · intro t k m a t1 h
    unfold pall at h
    rcases pall_loop_frame k t t.stack with ⟨t2, h1, h2, h3, -, -⟩ | h1 | h1
    · rw [h1] at h
      cases h
      exact ⟨h2, h3⟩
    · rw [h1] at h
      cases h
    · rw [h1] at h
      cases h
  · refine ⟨_, pall_of_is_stack s es fuel ln arg hrep hfuel, rfl, rfl, hrep, h2, ?_, ?_⟩
    · rw [parse_and_execute_pall_line]
      exact pall_of_is_stack s es fuel ln 0 hrep hfuel
    · rw [parse_and_execute_pall_line]
      exact h2 (ln + 1) 0

theorem pall_never_mutates_witness :
    is_stack two_nodes.mem none two_nodes.stack [2, 1] = true ∧ [(2 : Int), 1].length ≤ 2 ∧
      ∃ s1, pall 2 two_nodes 7 0 = Outcome.ret s1 ∧ s1.mem = two_nodes.mem ∧
        s1.stack = two_nodes.stack ∧
        pall 2 s1 8 0 = Outcome.ret { two_nodes with out := "2\n1\n2\n1\n".toList } := by
  obtain ⟨s1, h1, h2, h3, -, h5, -, -⟩ :=
    (pall_never_mutates two_nodes [2, 1] 2 7 0 (by decide) (by decide)).2
  exact ⟨by decide, by decide, s1, h1, h2, h3, h5 8 0⟩

/-- C8: on a stack holding `s` (here `es`) with memory left, `push` with argument `v`
returns, the stack then holds `v` followed by `es`, nothing is written, and the
outcome is the same for every line number. -/
theorem push_prepends (s : State) (es : List Int) (v : Int) (fuel ln : Nat)
    (hrep : is_stack s.mem none s.stack es = true) (havail : 0 < s.avail) :
    (∃ s1, push fuel s ln v = Outcome.ret s1 ∧ is_stack s1.mem none s1.stack (v :: es) = true ∧
        s1.out = s.out ∧ s1.err = s.err) ∧
      (∀ (fs : List Int) (s1 : State), push fuel s ln v = Outcome.ret s1 →
        is_stack s1.mem none s1.stack fs = true →
        fs = v :: es ∧ fs.head? = some v ∧ fs.length = es.length + 1 ∧ fs.tail = es) ∧
      ∀ (k m : Nat), push k s m v = push fuel s ln v := by
  obtain ⟨s1, h1, h2, -, -, -, h3, h4⟩ := push_is_stack fuel s ln v es hrep havail
  refine ⟨⟨s1, h1, h2, h3, h4⟩, ?_, fun _ _ => rfl⟩
  intro fs t1 ht hfs
  rw [h1] at ht
  cases ht
  have := is_stack_unique _ _ _ _ _ _ hfs h2
  subst this
  simp

theorem push_prepends_witness :
    is_stack two_nodes.mem none two_nodes.stack [2, 1] = true ∧ 0 < two_nodes.avail ∧
      ∃ s1, push 0 two_nodes 3 5 = Outcome.ret s1 ∧
        is_stack s1.mem none s1.stack [5, 2, 1] = true ∧ s1.out = two_nodes.out ∧
        s1.err = two_nodes.err :=
  ⟨by decide, by decide, (push_prepends two_nodes [2, 1] 5 0 3 (by decide) (by decide)).1⟩

/-- C9: `get_op_func` is an exact, case-sensitive match: it returns `push` exactly for
the name `push`, `pall` exactly for the name `pall`, and `NULL` for every other
string, among them `PUSH`, `Pall`, `pus`, `pushx` and the empty string. -/
theorem get_op_func_exact_match (name : List Char) :
    (get_op_func name = some push ↔ name = "push".toList) ∧
      (get_op_func name = some pall ↔ name = "pall".toList) ∧
      (get_op_func name = none ↔ name ≠ "push".toList ∧ name ≠ "pall".toList) ∧
      get_op_func "PUSH".toList = none ∧ get_op_func "Pall".toList = none ∧
      get_op_func "pus".toList = none ∧ get_op_func "pushx".toList = none ∧
      get_op_func [] = none := by
  have hne : "push".toList ≠ "pall".toList := by decide
  rw [get_op_func_eq]
  refine ⟨?_, ?_, ?_, rfl, rfl, rfl, rfl, rfl⟩
  · by_cases h1 : name = "push".toList
    · rw [if_pos h1]
      exact ⟨fun _ => h1, fun _ => rfl⟩
    · by_cases h2 : name = "pall".toList
      · rw [if_neg h1, if_pos h2]
        exact ⟨fun h => absurd (Option.some.inj h).symm push_ne_pall, fun h => absurd h h1⟩
      · rw [if_neg h1, if_neg h2]
        exact ⟨fun h => Option.noConfusion h, fun h => absurd h h1⟩
  · by_cases h1 : name = "push".toList
    · rw [if_pos h1]
      exact ⟨fun h => absurd (Option.some.inj h) push_ne_pall,
        fun h => absurd (h1.symm.trans h) hne⟩
    · by_cases h2 : name = "pall".toList
      · rw [if_neg h1, if_pos h2]
        exact ⟨fun _ => h2, fun _ => rfl⟩
      · rw [if_neg h1, if_neg h2]
        exact ⟨fun h => Option.noConfusion h, fun h => absurd h h2⟩
  · by_cases h1 : name = "push".toList
    · rw [if_pos h1]
      exact ⟨fun h => Option.noConfusion h, fun h => absurd h1 h.1⟩
    · by_cases h2 : name = "pall".toList
      · rw [if_neg h1, if_pos h2]
        exact ⟨fun h => Option.noConfusion h, fun h => absurd h2 h.2⟩
      · rw [if_neg h1, if_neg h2]
        exact ⟨fun _ => ⟨h1, h2⟩, fun _ => rfl⟩

/-- C10: a line whose only token is `push`, with any delimiters around it, has the
same outcome as the line `push 0` in every state and for every line number: it is
the call of `push` with argument 0, so on a stack holding `es` with memory left the
stack then holds 0 followed by `es` and nothing is written. -/
theorem push_without_argument_is_push_zero (fuel : Nat) (s : State) (ln : Nat)
    (ws1 ws2 : List Char) (h1 : ∀ c ∈ ws1, c ∈ delims) (h2 : ∀ c ∈ ws2, c ∈ delims) :
    parse_and_execute fuel (ws1 ++ "push".toList ++ ws2) s ln =
        parse_and_execute fuel "push 0".toList s ln ∧
      parse_and_execute fuel (ws1 ++ "push".toList ++ ws2) s ln = push fuel s ln 0 ∧
      ∀ es, is_stack s.mem none s.stack es = true → 0 < s.avail →
        ∃ s1, parse_and_execute fuel (ws1 ++ "push".toList ++ ws2) s ln = Outcome.ret s1 ∧
          is_stack s1.mem none s1.stack (0 :: es) = true ∧ s1.out = s.out ∧ s1.err = s.err := by
  have h := parse_and_execute_push_alone fuel s ln ws1 ws2 h1 h2
  refine ⟨h.trans rfl, h, ?_⟩
  intro es hrep havail
  rw [h]
  obtain ⟨s1, e1, e2, -, -, -, e3, e4⟩ := push_is_stack fuel s ln 0 es hrep havail
  exact ⟨s1, e1, e2, e3, e4⟩

theorem push_without_argument_is_push_zero_witness :
    (∀ c ∈ " \t".toList, c ∈ delims) ∧ (∀ c ∈ "  \n".toList, c ∈ delims) ∧
      parse_and_execute 0 (" \t".toList ++ "push".toList ++ "  \n".toList) two_nodes 9 =
        parse_and_execute 0 "push 0".toList two_nodes 9 :=
  ⟨by decide, by decide,
    (push_without_argument_is_push_zero 0 two_nodes 9 " \t".toList "  \n".toList
      (by decide) (by decide)).1⟩

/-- C11, as stated: a token that does not begin with an integer is not always pushed
as 0. The token made of a carriage return and `7` begins with neither a digit nor a
sign, yet `atoi` skips the carriage return as white space and the line pushes 7,
where `push 0` pushes 0. -/
theorem push_carriage_return_seven_pushes_seven :
    begins_with_integer "\r7".toList = false ∧
      parse_and_execute 0 "push \r7\n".toList (init 1) 1 = push 0 (init 1) 1 7 ∧
      parse_and_execute 0 "push \r7\n".toList (init 1) 1 ≠
        parse_and_execute 0 "push 0\n".toList (init 1) 1 :=
  ⟨by decide, rfl, by decide⟩

/-- C11, amended: when what follows the leading white space of the argument token
(carriage return, vertical tab, form feed) does not begin with an integer, as for
`abc`, the `push` line has the same outcome as `push 0` in every state and for every
line number: it is the call of `push` with argument 0, so on a stack holding `es`
with memory left the stack then holds 0 followed by `es` and nothing is written. -/
theorem push_non_numeric_is_push_zero (fuel : Nat) (s : State) (ln : Nat)
    (ws d tok post : List Char) (hws : ∀ c ∈ ws, c ∈ delims) (hd : d ≠ [])
    (hdd : ∀ c ∈ d, c ∈ delims) (hne : tok ≠ []) (htok : ∀ c ∈ tok, c ∉ delims)
    (hpost : ∀ c ∈ post, c ∈ delims)
    (hnn : begins_with_integer (tok.dropWhile isspace) = false) :
    parse_and_execute fuel (ws ++ "push".toList ++ d ++ tok ++ post) s ln =
        parse_and_execute fuel "push 0".toList s ln ∧
      parse_and_execute fuel (ws ++ "push".toList ++ d ++ tok ++ post) s ln =
        push fuel s ln 0 ∧
      ∀ es, is_stack s.mem none s.stack es = true → 0 < s.avail →
        ∃ s1, parse_and_execute fuel (ws ++ "push".toList ++ d ++ tok ++ post) s ln =
            Outcome.ret s1 ∧
          is_stack s1.mem none s1.stack (0 :: es) = true ∧ s1.out = s.out ∧ s1.err = s.err := by
  have h : parse_and_execute fuel (ws ++ "push".toList ++ d ++ tok ++ post) s ln =
      push fuel s ln 0 := by
    rw [parse_and_execute_push_arg fuel s ln ws d tok post hws hd hdd hne htok
      (fun c hc => hpost c (List.mem_of_mem_head? hc)), atoi_non_numeric tok hnn]
  refine ⟨h.trans rfl, h, ?_⟩
  intro es hrep havail
  rw [h]
  obtain ⟨s1, e1, e2, -, -, -, e3, e4⟩ := push_is_stack fuel s ln 0 es hrep havail
  exact ⟨s1, e1, e2, e3, e4⟩

theorem push_non_numeric_is_push_zero_witness :
    (∀ c ∈ "\t".toList, c ∈ delims) ∧ " ".toList ≠ [] ∧ (∀ c ∈ " ".toList, c ∈ delims) ∧
      "abc".toList ≠ [] ∧ (∀ c ∈ "abc".toList, c ∉ delims) ∧
      (∀ c ∈ "\n".toList, c ∈ delims) ∧
      begins_with_integer ("abc".toList.dropWhile isspace) = false ∧
      parse_and_execute 0 ("\t".toList ++ "push".toList ++ " ".toList ++ "abc".toList ++
          "\n".toList) two_nodes 5 = parse_and_execute 0 "push 0".toList two_nodes 5 :=
  ⟨by decide, by decide, by decide, by decide, by decide, by decide, by decide,
    (push_non_numeric_is_push_zero 0 two_nodes 5 "\t".toList " ".toList "abc".toList
      "\n".toList (by decide) (by decide) (by decide) (by decide) (by decide) (by decide)
      (by decide)).1⟩

/-- C12: the run of `main` ends with success and an empty stderr for every file, also
when a line has an unknown opcode, as for the file of the one line `foo`: no line is
read. Handed that line, the loop body exits with failure and the diagnostic for
line 1. -/
theorem main_exits_with_success_for_every_file (fuel avail : Nat) (file : List Char) :
    main (fuel + 1) ["monty".toList, "prog.m".toList] (fun _ => some file) (init avail) =
        Outcome.exit EXIT_SUCCESS (init avail) ∧
      main (fuel + 1) ["monty".toList, "prog.m".toList] (fun _ => some "foo\n".toList)
          (init avail) = Outcome.exit EXIT_SUCCESS (init avail) ∧
      (init avail).err = [] ∧ is_known "foo\n".toList = false ∧
      ∃ s1, exec_lines 1 ["foo\n".toList] 0 (init 0) = Outcome.exit EXIT_FAILURE s1 ∧
        s1.err = "L1: unknown instruction foo\n".toList :=
  ⟨rfl, rfl, rfl, by decide, _, rfl, rfl⟩

/-- C13: the argument token of `push` is read by the leading-integer rule. For a token
made of an optional `+` or `-`, one or more decimal digits denoting a value that,
with its sign, is an `int` `v`, and a tail that does not start with a digit, the
line is the call of `push` with argument `v`: on a stack holding `es` with memory
left the stack then holds `v` followed by `es` and nothing is written. -/
theorem push_reads_leading_integer (fuel : Nat) (s : State) (ln : Nat)
    (ws d sign ds tail post : List Char) (v : Int)
    (hws : ∀ c ∈ ws, c ∈ delims) (hd : d ≠ []) (hdd : ∀ c ∈ d, c ∈ delims)
    (hsign : sign = [] ∨ sign = ['+'] ∨ sign = ['-']) (hne : ds ≠ [])
    (hds : ∀ c ∈ ds, isdigit c = true) (htail : ∀ c ∈ tail.head?, isdigit c = false)
    (htok : ∀ c ∈ tail, c ∉ delims) (hpost : ∀ c ∈ post.head?, c ∈ delims)
    (hv : v = if sign = ['-'] then -(digits_value ds : Int) else digits_value ds)
    (hrange : -(2 ^ 31) ≤ v ∧ v < 2 ^ 31) :
    parse_and_execute fuel (ws ++ "push".toList ++ d ++ (sign ++ ds ++ tail) ++ post) s ln =
        push fuel s ln v ∧
      ∀ es, is_stack s.mem none s.stack es = true → 0 < s.avail →
        ∃ s1, parse_and_execute fuel
              (ws ++ "push".toList ++ d ++ (sign ++ ds ++ tail) ++ post) s ln =
            Outcome.ret s1 ∧
          is_stack s1.mem none s1.stack (v :: es) = true ∧ s1.out = s.out ∧ s1.err = s.err := by
  have hne1 : sign ++ ds ++ tail ≠ [] := by
    intro h
    simp only [List.append_eq_nil] at h
    exact hne h.1.2
  have hfree : ∀ c ∈ sign ++ ds ++ tail, c ∉ delims := by
    intro c hc
    simp only [List.mem_append] at hc
    rcases hc with (hc | hc) | hc
    · rcases hsign with rfl | rfl | rfl
      · simp at hc
      · simp only [List.mem_singleton] at hc
        subst hc
        decide
      · simp only [List.mem_singleton] at hc
        subst hc
        decide
    · exact (isdigit_facts c (hds c hc)).2.2.2
    · exact htok c hc
  have h : parse_and_execute fuel (ws ++ "push".toList ++ d ++ (sign ++ ds ++ tail) ++ post) s
      ln = push fuel s ln v := by
    rw [parse_and_execute_push_arg fuel s ln ws d _ post hws hd hdd hne1 hfree hpost,
      atoi_leading_integer sign ds tail hsign hne hds htail (hv ▸ hrange), ← hv]
  refine ⟨h, ?_⟩
  intro es hrep havail
  rw [h]
  obtain ⟨s1, e1, e2, -, -, -, e3, e4⟩ := push_is_stack fuel s ln v es hrep havail
  exact ⟨s1, e1, e2, e3, e4⟩

theorem push_reads_leading_integer_witness :
    (∀ c ∈ " ".toList, c ∈ delims) ∧ " \t".toList ≠ [] ∧ (∀ c ∈ " \t".toList, c ∈ delims) ∧
      (['-'] = [] ∨ ['-'] = ['+'] ∨ ['-'] = ['-']) ∧ "12".toList ≠ [] ∧
      (∀ c ∈ "12".toList, isdigit c = true) ∧ (∀ c ∈ "abc".toList.head?, isdigit c = false) ∧
      (∀ c ∈ "abc".toList, c ∉ delims) ∧ (∀ c ∈ "\n".toList.head?, c ∈ delims) ∧
      (-12 : Int) = (if ['-'] = ['-'] then -(digits_value "12".toList : Int)
        else digits_value "12".toList) ∧
      (-(2 ^ 31) ≤ (-12 : Int) ∧ (-12 : Int) < 2 ^ 31) ∧
      parse_and_execute 0 (" ".toList ++ "push".toList ++ " \t".toList ++
          (['-'] ++ "12".toList ++ "abc".toList) ++ "\n".toList) two_nodes 6 =
        push 0 two_nodes 6 (-12) :=
  ⟨by decide, by decide, by decide, by decide, by decide, by decide, by decide, by decide,
    by decide, by decide, by decide,
    (push_reads_leading_integer 0 two_nodes 6 " ".toList " \t".toList ['-'] "12".toList
      "abc".toList "\n".toList (-12) (by decide) (by decide) (by decide) (by decide) (by decide)
      (by decide) (by decide) (by decide) (by decide) (by decide) (by decide)).1⟩

/-- C14: every stack reached from the empty stack by calls of `push` and `pall` (with
memory and fuel for the pushes) is a well-formed doubly linked list: the calls all
return, the stack holds the pushed values, last pushed first; its nodes lie at
pairwise different addresses chained by `next` up to `NULL` (no cycle), the head
node has no predecessor and holds the value pushed last, the successor of a node has
that node as predecessor, and the head is absent exactly when nothing was pushed.
Both handlers keep a well-formed stack well-formed. -/
theorem reachable_stack_is_well_formed (fuel avail : Nat) (cs : List call)
    (hav : (pushed_values cs).length ≤ avail) (hfuel : (pushed_values cs).length ≤ fuel) :
    (∃ s1, run_calls fuel cs (init avail) = Outcome.ret s1 ∧
        is_stack s1.mem none s1.stack (pushed_values cs).reverse = true ∧
        (∃ addrs, addrs.length = (pushed_values cs).length ∧ well_formed s1 addrs) ∧
        (s1.stack = none ↔ pushed_values cs = []) ∧
        ∀ v, (pushed_values cs).getLast? = some v →
          ∃ a node, s1.stack = some a ∧ s1.mem.get? a = some node ∧ node.n = v ∧
            node.prev = none) ∧
      (∀ (s : State) (es : List Int) (k ln : Nat) (v : Int),
        is_stack s.mem none s.stack es = true → 0 < s.avail →
        ∃ s1 addrs, push k s ln v = Outcome.ret s1 ∧
          is_stack s1.mem none s1.stack (v :: es) = true ∧ well_formed s1 addrs) ∧
      ∀ (s : State) (es : List Int) (k ln : Nat) (a : Int),
        is_stack s.mem none s.stack es = true → es.length ≤ k →
        ∃ s1 addrs, pall k s ln a = Outcome.ret s1 ∧
          is_stack s1.mem none s1.stack es = true ∧ well_formed s1 addrs := by
  refine ⟨?_, ?_, ?_⟩
  · obtain ⟨s1, e1, r1, -⟩ := run_calls_is_stack fuel cs (init avail) [] rfl hav
      (by simpa using hfuel)
    rw [List.append_nil] at r1
    obtain ⟨addrs, hl, hw⟩ := well_formed_of_is_stack s1 _ r1
    refine ⟨s1, e1, r1, ⟨addrs, by simpa using hl, hw⟩, ?_, ?_⟩
    · constructor
      · intro hs
        rw [hs] at r1
        simpa using (is_stack_none _ _ _).1 r1
      · intro hp
        rw [hp] at r1
        cases hst : s1.stack with
        | none => rfl
        | some a =>
          rw [hst] at r1
          simp [is_stack] at r1
    · intro v hv
      cases hst : s1.stack with
      | none =>
        rw [hst] at r1
        have := (is_stack_none _ _ _).1 r1
        simp only [List.reverse_eq_nil_iff] at this
        rw [this] at hv
        cases hv
      | some a =>
        rw [hst] at r1
        obtain ⟨node, vs, e, g, hp, -⟩ := (is_stack_some _ _ _ _).1 r1
        refine ⟨a, node, rfl, g, ?_, hp⟩
        have h1 : (pushed_values cs).reverse.head? = some node.n := by rw [e]; rfl
        rw [List.head?_reverse] at h1
        rw [hv] at h1
        exact (Option.some.inj h1).symm
  · intro s es k ln v h havail
    obtain ⟨s1, e1, r1, -⟩ := push_is_stack k s ln v es h havail
    obtain ⟨addrs, -, hw⟩ := well_formed_of_is_stack s1 _ r1
    exact ⟨s1, addrs, e1, r1, hw⟩
  · intro s es k ln a h hk
    obtain ⟨addrs, -, hw⟩ :=
      well_formed_of_is_stack { s with out := s.out ++ print_lines es } es h
    exact ⟨_, addrs, pall_of_is_stack s es k ln a h hk, h, hw⟩

theorem reachable_stack_is_well_formed_witness :
    (pushed_values [call.push 1 5, call.pall 2 0, call.push 3 6]).length ≤ 2 ∧
      (pushed_values [call.push 1 5, call.pall 2 0, call.push 3 6]).length ≤ 2 ∧
      ∃ s1, run_calls 2 [call.push 1 5, call.pall 2 0, call.push 3 6] (init 2) =
          Outcome.ret s1 ∧
        is_stack s1.mem none s1.stack [6, 5] = true ∧
        ∃ addrs, addrs.length = 2 ∧ well_formed s1 addrs := by
  obtain ⟨s1, h1, h2, h3, -, -⟩ :=
    (reachable_stack_is_well_formed 2 2 [call.push 1 5, call.pall 2 0, call.push 3 6]
      (by decide) (by decide)).1
  exact ⟨by decide, by decide, s1, h1, h2, h3⟩

/-- C15: whether `parse_and_execute` fails with an unknown-instruction diagnostic, and
with which text, does not depend on the state it runs in: for every line, line
number and two states (and amounts of fuel) it fails so in the one exactly when it
does in the other, and then the diagnostics are the same. -/
theorem unknown_instruction_independent_of_stack (line : List Char) (ln : Nat)
    (s1 s2 : State) (fuel1 fuel2 : Nat) :
    ((∃ d, is_unknown_failure s1 (parse_and_execute fuel1 line s1 ln) d) ↔
        ∃ d, is_unknown_failure s2 (parse_and_execute fuel2 line s2 ln) d) ∧
      ∀ d1 d2, is_unknown_failure s1 (parse_and_execute fuel1 line s1 ln) d1 →
        is_unknown_failure s2 (parse_and_execute fuel2 line s2 ln) d2 → d1 = d2 := by
  by_cases h : ∃ tok, decode line = instr.unknown tok
  · obtain ⟨tok, ht⟩ := h
    have u1 := unknown_is_unknown_failure fuel1 line s1 ln tok ht
    have u2 := unknown_is_unknown_failure fuel2 line s2 ln tok ht
    refine ⟨⟨fun _ => ⟨_, u2⟩, fun _ => ⟨_, u1⟩⟩, ?_⟩
    intro d1 d2 h1 h2
    have e1 := State_err_append_cancel s1 _ _ (Outcome.exit.inj (u1.1.symm.trans h1.1)).2
    have e2 := State_err_append_cancel s2 _ _ (Outcome.exit.inj (u2.1.symm.trans h2.1)).2
    exact e1.symm.trans e2
  · have hk : ∀ tok, decode line ≠ instr.unknown tok := fun tok ht => h ⟨tok, ht⟩
    refine ⟨⟨?_, ?_⟩, ?_⟩
    · rintro ⟨d, hd⟩
      exact absurd hd (known_is_not_unknown_failure fuel1 line s1 ln hk d)
    · rintro ⟨d, hd⟩
      exact absurd hd (known_is_not_unknown_failure fuel2 line s2 ln hk d)
    · intro d1 d2 h1 _
      exact absurd h1 (known_is_not_unknown_failure fuel1 line s1 ln hk d1)

/-- C16: on the file `push 1`, `pall`, `push 2`, `pall` the run of `main` ends with
nothing on stdout and the stack still empty, as no line is read; the output expected
of these lines, which the loop body produces when handed them, is `1`, `2`, `1`,
one per line, with the stack holding 2, 1. -/
theorem main_interleaved_program_prints_nothing (fuel avail : Nat) :
    main (fuel + 1) ["monty".toList, "prog.m".toList]
        (fun _ => some "push 1\npall\npush 2\npall\n".toList) (init avail) =
      Outcome.exit EXIT_SUCCESS (init avail) ∧
    (init avail).out = [] ∧ (init avail).stack = none ∧
    expected_out (["push 1\n".toList, "pall\n".toList, "push 2\n".toList,
        "pall\n".toList].map decode) = "1\n2\n1\n".toList ∧
    ∃ s1, exec_lines 2 ["push 1\n".toList, "pall\n".toList, "push 2\n".toList,
        "pall\n".toList] 0 (init 2) = Outcome.ret s1 ∧ s1.out = "1\n2\n1\n".toList ∧
      is_stack s1.mem none s1.stack [2, 1] = true :=
  ⟨rfl, rfl, rfl, by decide, _, rfl, rfl, by decide⟩

/-- C17: only the first two tokens of a line count. A `push` line with anything after
the delimiter that ends its argument has the outcome of the line with opcode and
argument only, the call of `push` with the value of the argument; a `pall` line with
anything after the delimiter that ends the opcode has the outcome of plain `pall`,
the call of `pall`, whose result does not depend on its argument. So `push 1 2 foo`
does what `push 1` does and `pall 5 x` what `pall` does, without an error. -/
theorem extra_tokens_are_ignored (fuel : Nat) (s : State) (ln : Nat)
    (ws d tok d2 extra ws2 rest2 : List Char)
    (hws : ∀ c ∈ ws, c ∈ delims) (hd : d ≠ []) (hdd : ∀ c ∈ d, c ∈ delims)
    (hne : tok ≠ []) (htok : ∀ c ∈ tok, c ∉ delims)
    (hd2 : d2 ≠ []) (hdd2 : ∀ c ∈ d2, c ∈ delims)
    (hws2 : ∀ c ∈ ws2, c ∈ delims) (hrest2 : ∀ c ∈ rest2.head?, c ∈ delims) :
    parse_and_execute fuel (ws ++ "push".toList ++ d ++ tok ++ (d2 ++ extra)) s ln =
        parse_and_execute fuel (ws ++ "push".toList ++ d ++ tok) s ln ∧
      parse_and_execute fuel (ws ++ "push".toList ++ d ++ tok ++ (d2 ++ extra)) s ln =
        push fuel s ln (atoi tok) ∧
      parse_and_execute fuel (ws2 ++ "pall".toList ++ rest2) s ln =
        parse_and_execute fuel "pall".toList s ln ∧
      parse_and_execute fuel (ws2 ++ "pall".toList ++ rest2) s ln = pall fuel s ln 0 ∧
      (∀ a, pall fuel s ln a = pall fuel s ln 0) ∧
      parse_and_execute fuel "push 1 2 foo".toList s ln =
        parse_and_execute fuel "push 1".toList s ln ∧
      parse_and_execute fuel "pall 5 x".toList s ln =
        parse_and_execute fuel "pall".toList s ln := by
  have hh : ∀ c ∈ (d2 ++ extra).head?, c ∈ delims := by
    intro c hc
    cases d2 with
    | nil => exact absurd rfl hd2
    | cons x xs =>
      simp only [List.cons_append, List.head?_cons, Option.mem_def, Option.some.injEq] at hc
      subst hc
      exact hdd2 _ (List.mem_cons_self _ _)
  have h1 := parse_and_execute_push_arg fuel s ln ws d tok (d2 ++ extra) hws hd hdd hne htok hh
  have h2 := parse_and_execute_push_arg fuel s ln ws d tok [] hws hd hdd hne htok (by simp)
  rw [List.append_nil] at h2
  have h3 := parse_and_execute_pall_any fuel s ln ws2 rest2 hws2 hrest2
  exact ⟨h1.trans h2.symm, h1, h3.trans rfl, h3, fun _ => rfl, rfl, rfl⟩

theorem extra_tokens_are_ignored_witness :
    (∀ c ∈ ([] : List Char), c ∈ delims) ∧ " ".toList ≠ [] ∧ (∀ c ∈ " ".toList, c ∈ delims) ∧
      "1".toList ≠ [] ∧ (∀ c ∈ "1".toList, c ∉ delims) ∧ " ".toList ≠ [] ∧
      (∀ c ∈ " ".toList, c ∈ delims) ∧ (∀ c ∈ ([] : List Char), c ∈ delims) ∧
      (∀ c ∈ " 5 x\n".toList.head?, c ∈ delims) ∧
      parse_and_execute 2 ([] ++ "push".toList ++ " ".toList ++ "1".toList ++
          (" ".toList ++ "2 foo\n".toList)) two_nodes 3 =
        parse_and_execute 2 ([] ++ "push".toList ++ " ".toList ++ "1".toList) two_nodes 3 ∧
      parse_and_execute 2 ([] ++ "pall".toList ++ " 5 x\n".toList) two_nodes 3 =
        parse_and_execute 2 "pall".toList two_nodes 3 :=
  have h := extra_tokens_are_ignored 2 two_nodes 3 [] " ".toList "1".toList " ".toList
    "2 foo\n".toList [] " 5 x\n".toList (by decide) (by decide) (by decide) (by decide)
    (by decide) (by decide) (by decide) (by decide) (by decide)
  ⟨by decide, by decide, by decide, by decide, by decide, by decide, by decide, by decide,
    by decide, h.1, h.2.2.1⟩

/-- C18: tokens are delimited by space, tab and newline only. Whatever `strtok` returns
is the first maximal run of other characters after the leading delimiters, and each
such run is returned, so a carriage return is token text. A line with spaces and
tabs (or newlines) before `push 3` is the call of `push` with 3, while the line of
`pall`, carriage return, newline has the opcode token `pall` with the carriage
return, which `get_op_func` does not know, and ends with the unknown-instruction
diagnostic and a failure exit. -/
theorem tokens_are_delimited_by_space_tab_newline (fuel : Nat) (s : State) (ln : Nat)
    (ws : List Char) (hws : ∀ c ∈ ws, c ∈ delims) :
    delims = [' ', '\t', '\n'] ∧
      (∀ line tok saved, strtok line delims = some (tok, saved) →
        ∃ lead rest, first_token line lead tok rest ∧ saved = rest.drop 1) ∧
      (∀ line lead tok rest, first_token line lead tok rest →
        strtok line delims = some (tok, rest.drop 1)) ∧
      (∀ line, strtok line delims = none ↔ ∀ c ∈ line, c ∈ delims) ∧
      parse_and_execute fuel (ws ++ "push 3\n".toList) s ln = push fuel s ln 3 ∧
      strtok "pall\r\n".toList delims = some ("pall\r".toList, []) ∧
      get_op_func "pall\r".toList = none ∧
      parse_and_execute fuel "pall\r\n".toList s ln =
        Outcome.exit EXIT_FAILURE
          { s with err := s.err ++ ("L".toList ++ fmt_d (toInt32 ln) ++
                    ": unknown instruction pall\r\n".toList) } := by
  refine ⟨rfl, first_token_of_strtok, strtok_first_token, ?_, ?_, by decide, ?_, ?_⟩
  rotate_left 2
  · rw [get_op_func_eq, if_neg (by decide), if_neg (by decide)]
  · have hdec : decode "pall\r\n".toList = instr.unknown "pall\r".toList := by decide
    rw [parse_and_execute_decode, hdec]
    simp only [unknown_diagnostic, List.append_assoc]
    rfl
  · intro line
    constructor
    · intro h
      unfold strtok at h
      have hnil : line.dropWhile (fun c => delims.contains c) = [] := by
        cases hu : line.dropWhile (fun c => delims.contains c) with
        | nil => rfl
        | cons c cs =>
          rw [hu] at h
          cases h
      intro c hc
      have := List.dropWhile_eq_nil_iff.1 hnil c hc
      simpa using this
    · exact strtok_blank line
  · have h := parse_and_execute_push_arg fuel s ln ws " ".toList "3".toList "\n".toList hws
      (by decide) (by decide) (by decide) (by decide) (by decide)
    have e : ws ++ "push".toList ++ " ".toList ++ "3".toList ++ "\n".toList =
        ws ++ "push 3\n".toList := by
      simp only [List.append_assoc]
      rfl
    rw [e] at h
    rw [h]
    rfl

theorem tokens_are_delimited_by_space_tab_newline_witness :
    (∀ c ∈ " \t ".toList, c ∈ delims) ∧
      parse_and_execute 0 (" \t ".toList ++ "push 3\n".toList) two_nodes 4 =
        push 0 two_nodes 4 3 ∧
      parse_and_execute 0 "pall\r\n".toList two_nodes 4 =
        Outcome.exit EXIT_FAILURE
          { two_nodes with err := two_nodes.err ++ ("L".toList ++ fmt_d (toInt32 4) ++
                    ": unknown instruction pall\r\n".toList) } :=
  have h := tokens_are_delimited_by_space_tab_newline 0 two_nodes 4 " \t ".toList (by decide)
  ⟨by decide, h.2.2.2.2.1, h.2.2.2.2.2.2.2⟩

end Monty
